import Mathlib

/-!
Verification of the ha-l10n string-transformation core.

This file embeds the pure data-transformation routines of `ha_l10n`
(`strings.py`, `scanner.py`, `export.py`) into Lean 4 and proves or refutes
the specification's claims about them.

Modelling conventions:
* Python `dict` values are modelled as association lists with distinct keys
  (insertion preserves the position of an existing key, matching CPython
  dict-assignment semantics).
* Python strings are Lean `String`s; `str.split('.')` is modelled character
  by character on `String.data`.
* Fallible code paths (runtime exceptions) are modelled with `Except Unit`.
-/

mutual

/-- A parsed JSON value, as relevant to `_flatten_json`: a string leaf, a
mapping, or any other JSON value (number, bool, null, array), which the
flattening code silently skips.  Mappings are association lists (`JMembers`)
preserving insertion order, like Python dicts. -/
inductive Json where
  | str (s : String)
  | other
  | obj (members : JMembers)

/-- The ordered members of a JSON mapping (Python dict of str → value). -/
inductive JMembers where
  | nil
  | cons (k : String) (v : Json) (rest : JMembers)

end

deriving instance DecidableEq for Json, JMembers

deriving instance DecidableEq for Except

/-- First-match lookup in a mapping, i.e. Python `d[k]` / `d.get(k)` on a
dict (keys are unique in a real dict, so first match is the match). -/
def lookupM : JMembers → String → Option Json
  | .nil, _ => none
  | .cons k' v rest, k => if k' = k then some v else lookupM rest k

/-- Python `d[k] = j` on a dict: replace the value in place if the key is
present, otherwise append a new entry at the end. -/
def membersInsert : JMembers → String → Json → JMembers
  | .nil, k, j => .cons k j .nil
  | .cons k' v rest, k, j =>
    if k' = k then .cons k j rest else .cons k' v (membersInsert rest k j)

/-- Concatenation of two member lists. -/
def appendM : JMembers → JMembers → JMembers
  | .nil, m => m
  | .cons k v rest, m => .cons k v (appendM rest m)

/-- Keys of a mapping, in order. -/
def keysM : JMembers → List String
  | .nil => []
  | .cons k _ rest => k :: keysM rest

/-- A flat string table (Python dict of str → str), in insertion order. -/
abbrev StrMap := List (String × String)

/-- First-match lookup in a string table (Python `d.get(k)` on a dict). -/
def lookupS : StrMap → String → Option String
  | [], _ => none
  | (k', v) :: rest, k => if k' = k then some v else lookupS rest k

/-- Python `d[k] = v` on a str → str dict: replace in place or append. -/
def dictInsert : StrMap → String → String → StrMap
  | [], k, v => [(k, v)]
  | (k', v') :: rest, k, v =>
    if k' = k then (k, v) :: rest else (k', v') :: dictInsert rest k v

/-- The dotted-key join in `_flatten_json`:
`key = f"{prefix}.{k}" if prefix else k`. -/
def joinKey (pre k : String) : String :=
  if pre = "" then k else pre ++ "." ++ k

mutual

/-- Model of `_flatten_json(data, prefix, result)` from `strings.py` (also
`_flatten` in `scanner.py`, which is textually identical): descend into
mappings appending `.<key>` to the prefix, record string leaves into the
accumulator dict, skip all other values. -/
def flatten_json : Json → String → StrMap → StrMap
  | .obj ms, pre, res => flattenMembers ms pre res
  | .str s, pre, res => dictInsert res pre s
  | .other, _, res => res

/-- The `for k, v in data.items()` loop of `_flatten_json`. -/
def flattenMembers : JMembers → String → StrMap → StrMap
  | .nil, _, res => res
  | .cons k v rest, pre, res =>
    flattenMembers rest pre (flatten_json v (joinKey pre k) res)

end

/-- Character-level model of Python `s.split('.')` (on `String.data`):
split at every `'.'`, never merging, with `"".split('.') == [""]`. -/
def splitCs : List Char → List (List Char)
  | [] => [[]]
  | c :: rest =>
    if c = '.' then [] :: splitCs rest
    else
      match splitCs rest with
      | [] => [[c]]
      | g :: gs => (c :: g) :: gs

/-- Python `key.split('.')` on a `String`. -/
def splitDot (s : String) : List String :=
  (splitCs s.data).map (fun cs => String.mk cs)

/-- The inner loop of `export_ha_json` for one table entry: walk
`parts[:-1]` with `d = d.setdefault(p, {})`, then `d[parts[-1]] = val`.
Walking into an existing non-mapping value raises in Python
(`AttributeError`/`TypeError`), modelled as `.error ()`.  `parts` is the
result of `str.split`, hence never empty; the `[]` case is unreachable. -/
def insertPath : JMembers → List String → String → Except Unit JMembers
  | m, [p], v => .ok (membersInsert m p (.str v))
  | m, p :: q :: qs, v =>
    match lookupM m p with
    | some (.obj sub) =>
      (insertPath sub (q :: qs) v).map (fun s2 => membersInsert m p (.obj s2))
    | some _ => .error ()
    | none =>
      (insertPath .nil (q :: qs) v).map (fun s2 => membersInsert m p (.obj s2))
  | _, [], _ => .error ()

/-- The pure core of `export_ha_json(translations, filepath)` from
`export.py`: build the nested dict from the flat table, skipping entries
with falsy (empty) values.  File writing is outside this model. -/
def unflattenE (translations : StrMap) : Except Unit JMembers :=
  translations.foldlM
    (fun acc kv =>
      if kv.2 = "" then pure acc else insertPath acc (splitDot kv.1) kv.2)
    .nil

example : flatten_json
    (.obj (.cons "a" (.obj (.cons "b" (.str "hello")
      (.cons "c" (.str "world") .nil))) .nil)) "" []
    = [("a.b", "hello"), ("a.c", "world")] := by decide

example : unflattenE [("a.b", "hello"), ("a.c", "world")]
    = .ok (.cons "a" (.obj (.cons "b" (.str "hello")
      (.cons "c" (.str "world") .nil))) .nil) := by decide

example : unflattenE [("a", "x"), ("a.b", "y")] = .error () := by decide

example : unflattenE [("a", "")] = .ok .nil := by decide

example : splitDot "a..b" = ["a", "", "b"] := by decide

example : splitDot "" = [""] := by decide

/-! ## Strings view: coverage statistics and export rows (`strings.py`) -/

/-- Status constant `STATUS_TRANSLATED` from `strings.py`. -/
def STATUS_TRANSLATED : String := "translated"

/-- Status constant `STATUS_MISSING` from `strings.py`. -/
def STATUS_MISSING : String := "missing"

/-- Lexicographic comparison of character sequences by code point: the
order Python uses to compare `str` values. -/
def lexLeB : List Char → List Char → Bool
  | [], _ => true
  | _ :: _, [] => false
  | a :: as, b :: bs => if a = b then lexLeB as bs else decide (a.toNat < b.toNat)

/-- Python `a <= b` on strings, as a proposition. -/
def strLe (a b : String) : Prop := lexLeB a.data b.data = true

instance : DecidableRel strLe := fun _ _ => inferInstanceAs (Decidable (_ = true))

theorem lexLeB_total : ∀ a b, lexLeB a b = true ∨ lexLeB b a = true := by
  intro a
  induction a with
  | nil => intro b; left; rfl
  | cons x as ih =>
    intro b
    cases b with
    | nil => right; rfl
    | cons y bs =>
      simp only [lexLeB]
      by_cases hxy : x = y
      · subst hxy
        simp only [if_pos rfl]
        exact ih bs
      · have hyx : y ≠ x := fun h => hxy h.symm
        simp only [if_neg hxy, if_neg hyx, decide_eq_true_eq]
        have : x.toNat ≠ y.toNat := fun h =>
          hxy (Char.eq_of_val_eq (UInt32.toNat.inj h))
        omega

theorem lexLeB_trans :
    ∀ a b c, lexLeB a b = true → lexLeB b c = true → lexLeB a c = true := by
  intro a
  induction a with
  | nil => intro b c _ _; rfl
  | cons x as ih =>
    intro b c hab hbc
    cases b with
    | nil => simp [lexLeB] at hab
    | cons y bs =>
      cases c with
      | nil => simp [lexLeB] at hbc
      | cons z cs =>
        simp only [lexLeB] at hab hbc ⊢
        by_cases hxy : x = y
        · subst hxy
          simp only [if_pos rfl] at hab
          by_cases hyz : x = z
          · subst hyz
            simp only [if_pos rfl] at hbc ⊢
            exact ih bs cs hab hbc
          · simp only [if_neg hyz] at hbc ⊢
            exact hbc
        · simp only [if_neg hxy, decide_eq_true_eq] at hab
          by_cases hyz : y = z
          · subst hyz
            simp only [if_neg hxy, decide_eq_true_eq]
            exact hab
          · simp only [if_neg hyz, decide_eq_true_eq] at hbc
            by_cases hxz : x = z
            · subst hxz
              omega
            · simp only [if_neg hxz, decide_eq_true_eq]
              omega

theorem lexLeB_antisymm :
    ∀ a b, lexLeB a b = true → lexLeB b a = true → a = b := by
  intro a
  induction a with
  | nil => intro b _ hba; cases b with
    | nil => rfl
    | cons y bs => simp [lexLeB] at hba
  | cons x as ih =>
    intro b hab hba
    cases b with
    | nil => simp [lexLeB] at hab
    | cons y bs =>
      simp only [lexLeB] at hab hba
      by_cases hxy : x = y
      · subst hxy
        simp only [if_pos rfl] at hab hba
        exact congrArg (x :: ·) (ih bs hab hba)
      · have hyx : y ≠ x := fun h => hxy h.symm
        simp only [if_neg hxy, if_neg hyx, decide_eq_true_eq] at hab hba
        omega

instance : IsTotal String strLe := ⟨fun a b => lexLeB_total a.data b.data⟩

instance : IsTrans String strLe :=
  ⟨fun a b c => lexLeB_trans a.data b.data c.data⟩

instance : IsAntisymm String strLe :=
  ⟨fun a b h h' => String.ext (lexLeB_antisymm a.data b.data h h')⟩

/-- Ascending sort of a list of strings, modelling Python `sorted` on
`str` (both orders are lexicographic by code point; Python's sort is
stable, as is insertion sort). -/
def sortedStrings (l : List String) : List String :=
  l.insertionSort strLe

/-- Model of `self._all_keys = sorted(self._source_strings.keys())` set by
`StringsView._rebuild` after `load_strings(source, target)`. -/
def all_keys (source : StrMap) : List String :=
  sortedStrings (source.map Prod.fst)

/-- Truthiness of `self._target_strings.get(k)`: the key is present with a
non-empty value. -/
def targetTruthy (target : StrMap) (k : String) : Bool :=
  match lookupS target k with
  | some t => decide (t ≠ "")
  | none => false

/-- Model of `StringsView.get_coverage_stats` for a view loaded with the
given source and target tables: `(total, translated, percentage)` with
`total = len(self._all_keys)`, `translated` the count of keys whose target
lookup is truthy, and percentage `translated / total * 100` guarded by
`total > 0` (real division, modelled in `ℚ`). -/
def get_coverage_stats (source target : StrMap) : Nat × Nat × ℚ :=
  let total := (all_keys source).length
  let translated := ((all_keys source).filter (targetTruthy target)).length
  (total, translated, if total > 0 then (translated : ℚ) / (total : ℚ) * 100 else 0)

/-- One entry of the list built by `StringsView.get_strings_data`. -/
structure StringRow where
  key : String
  source : String
  target : String
  status : String
deriving DecidableEq

/-- Model of `StringsView.get_strings_data`: one row per key of
`self._all_keys`, with `tgt = self._target_strings.get(key, "")` and status
`translated` iff `tgt` is truthy (non-empty), else `missing`. -/
def get_strings_data (source target : StrMap) : List StringRow :=
  (all_keys source).map (fun k =>
    let src := (lookupS source k).getD ""
    let tgt := (lookupS target k).getD ""
    { key := k, source := src, target := tgt,
      status := if tgt = "" then STATUS_MISSING else STATUS_TRANSLATED })

/-! ## Export (`export.py`) -/

/-- Constant `APP_LABEL` from `export.py`. -/
def APP_LABEL : String := "HA L10n"

/-- Constant `AUTHOR` from `export.py`. -/
def AUTHOR : String := "Daniel Nylander"

/-- The trailing identification row written by `export_csv`
(`f"{APP_LABEL} v{__version__} — {AUTHOR}"`); `__version__` comes from the
package `__init__`, which is not part of the scanned sources, so the
version is a parameter here. -/
def csvIdentRow (version : String) : String :=
  APP_LABEL ++ " v" ++ version ++ " — " ++ AUTHOR

/-- Model of `export_csv(data, filepath)` from `export.py`, as the list of
rows handed to `csv.writer.writerow` in order: the header (the gettext
`_` calls are identity in the untranslated locale), one row per item with
its `key`/`source`/`target`/`status` fields, an empty row, and the
identification row.  Serialization and the file write are outside this
model. -/
def export_csv_rows (version : String) (data : List StringRow) : List (List String) :=
  [["Key", "Source", "Target", "Status"]]
    ++ data.map (fun r => [r.key, r.source, r.target, r.status])
    ++ [[]]
    ++ [[csvIdentRow version]]

/-- Replacement of every occurrence of the character `c` by the character
list `r`, on the character level: Python `s.replace(old, new)` for a
one-character `old`. -/
def replaceChar (c : Char) (r : List Char) : List Char → List Char
  | [] => []
  | x :: xs => if x = c then r ++ replaceChar c r xs else x :: replaceChar c r xs

/-- The escaping expression of `export_po` / `export_pot`:
`value.replace('\\', '\\\\').replace('"', '\\"')` — first double every
backslash, then prepend a backslash to every double quote. -/
def escapePo (s : String) : String :=
  String.mk (replaceChar '"' ['\\', '"'] (replaceChar '\\' ['\\', '\\'] s.data))

/-- One message block written by the entry loop of `export_po`:
a `#.` comment carrying the dotted key, the escaped `msgid`, the escaped
`msgstr`, and a blank line. -/
def poEntry (key value trans : String) : String :=
  "#. " ++ key ++ "\n"
    ++ "msgid \"" ++ escapePo value ++ "\"\n"
    ++ "msgstr \"" ++ escapePo trans ++ "\"\n\n"

/-- The entry section of `export_po(source_strings, translations, ...)`:
for each source key in sorted order (`sorted(source_strings.items())` on a
dict sorts by key, keys being unique), one `poEntry` with
`trans = translations.get(key, '')`.  The header block and the file write
are outside this model. -/
def export_po_entries (source translations : StrMap) : String :=
  String.join ((sortedStrings (source.map Prod.fst)).map (fun k =>
    poEntry k ((lookupS source k).getD "") ((lookupS translations k).getD "")))

/-! ## Filesystem model and scanner (`scanner.py`, file-reading parts of
`strings.py`)

A directory is a finite map from entry names to entries; an entry is a
file or a subdirectory.  Reading and JSON-parsing a file is collapsed
into the stored `Except Unit Json` (`.error` covering both
`json.JSONDecodeError` and `OSError`). -/

/-- A filesystem entry: a file (with the outcome of reading and parsing
it) or a directory. -/
inductive FSEntry where
  | file (content : Except Unit Json)
  | dir (entries : List (String × FSEntry))

/-- Python `name.startswith('.')`: the first character is a dot. -/
def startsWithDot (n : String) : Bool :=
  match n.data with
  | '.' :: _ => true
  | _ => false

/-- First-match lookup of a named entry in a directory listing. -/
def lookupFS : List (String × FSEntry) → String → Option FSEntry
  | [], _ => none
  | (n', e) :: rest, n => if n' = n then some e else lookupFS rest n

/-- Outcome of `path.read_text()` + `json.loads` on a path: a missing path
raises `FileNotFoundError` and a directory raises `IsADirectoryError`
(both `OSError`), so both are `.error`. -/
def readEntryJson : Option FSEntry → Except Unit Json
  | some (.file c) => c
  | some (.dir _) => .error ()
  | none => .error ()

/-- Model of `extract_strings_from_component(component_path)` from
`strings.py`: if `strings.json` exists, try to read and flatten it,
returning `{}` on `json.JSONDecodeError` or `OSError`; otherwise `{}`. -/
def extract_strings_from_component (component : List (String × FSEntry)) : StrMap :=
  match lookupFS component "strings.json" with
  | none => []
  | some e =>
    match readEntryJson (some e) with
    | .error _ => []
    | .ok data => flatten_json data "" []

/-- Model of `load_translations_for_component(component_path, lang)` from
`strings.py`: read `translations/<lang>.json` if it exists, returning `{}`
on any read or parse failure or when the path does not exist. -/
def load_translations_for_component (component : List (String × FSEntry)) (lang : String) : StrMap :=
  match lookupFS component "translations" with
  | some (.dir td) =>
    match lookupFS td (lang ++ ".json") with
    | none => []
    | some e =>
      match readEntryJson (some e) with
      | .error _ => []
      | .ok data => flatten_json data "" []
  | _ => []

/-- Python `Path(name).stem` for a name matched by `glob("*.json")`: strip
the five characters of the `.json` suffix, except that the bare name
`.json` has no suffix in pathlib and is its own stem. -/
def jsonStem (n : String) : String :=
  if n = ".json" then n else String.mk (n.data.take (n.data.length - 5))

/-- The names matched by `trans_dir.glob("*.json")`: entries whose name
ends in `.json` (pathlib's glob is fnmatch-based and does not exclude
dotfiles).  Glob enumerates in filesystem order, modelled by listing
order. -/
def globJsonNames (td : List (String × FSEntry)) : List String :=
  (td.map Prod.fst).filter (fun n => ".json".data.isSuffixOf n.data)

/-- Model of `get_available_languages(component_path)` from `strings.py`:
`sorted(p.stem for p in trans_dir.glob("*.json"))`, or `[]` when
`translations` does not exist (pathlib's glob on a non-directory also
yields nothing). -/
def get_available_languages (component : List (String × FSEntry)) : List String :=
  match lookupFS component "translations" with
  | some (.dir td) => sortedStrings ((globJsonNames td).map jsonStem)
  | some (.file _) => []
  | none => []

/-- The per-integration record built by `scan_integrations` (the `path`
field, `str(item)`, is display-only and omitted). -/
structure IntegrationInfo where
  name : String
  has_strings : Bool
  has_translations : Bool
  languages : List String
  string_count : Nat
  coverage : List (String × ℚ)
deriving DecidableEq

/-- Python dict assignment for a `str → ℚ` dict (the `coverage` dict). -/
def dictInsertQ : List (String × ℚ) → String → ℚ → List (String × ℚ)
  | [], k, v => [(k, v)]
  | (k', v') :: rest, k, v =>
    if k' = k then (k, v) :: rest else (k', v') :: dictInsertQ rest k v

/-- The `coverage[lang]` value computed by `scan_integrations` for one
language file: on a successful read and parse, `len(tstrings) /
string_count * 100` when `string_count > 0` else `0`; on
`json.JSONDecodeError` or `OSError`, `0`. -/
def langCoverage (string_count : Nat) (tread : Except Unit Json) : ℚ :=
  match tread with
  | .ok tdata =>
    if string_count > 0
    then ((flatten_json tdata "" []).length : ℚ) / (string_count : ℚ) * 100
    else 0
  | .error _ => 0

/-- The body of the `for item in sorted(path.iterdir())` loop of
`scan_integrations`, for one integration directory `sub` named `name`. -/
def integrationInfo (name : String) (sub : List (String × FSEntry)) : IntegrationInfo :=
  let string_count :=
    match lookupFS sub "strings.json" with
    | none => 0
    | some e =>
      match readEntryJson (some e) with
      | .ok data => (flatten_json data "" []).length
      | .error _ => 0
  let langs :=
    match lookupFS sub "translations" with
    | some (.dir td) => sortedStrings ((globJsonNames td).map jsonStem)
    | _ => []
  let coverage :=
    match lookupFS sub "translations" with
    | some (.dir td) =>
      langs.foldl (fun acc lang =>
        dictInsertQ acc lang
          (langCoverage string_count (readEntryJson (lookupFS td (lang ++ ".json"))))) []
    | _ => []
  { name := name
    has_strings := (lookupFS sub "strings.json").isSome
    has_translations := (lookupFS sub "translations").isSome
    languages := langs
    string_count := string_count
    coverage := coverage }

/-- The integration loop of `scan_integrations`: iterate the directory
entries in sorted order (`sorted(path.iterdir())` sorts the full paths,
which for entries of one directory is their name order), keeping only
subdirectories whose name does not start with `.` and is not
`__pycache__`. -/
def scanItem (d : List (String × FSEntry)) (name : String) : Option IntegrationInfo :=
  match lookupFS d name with
  | some (.dir sub) =>
    if startsWithDot name || name = "__pycache__" then none
    else some (integrationInfo name sub)
  | _ => none

/-- The enumeration itself: process the names in sorted order. -/
def scanDir (d : List (String × FSEntry)) : List IntegrationInfo :=
  (sortedStrings (d.map Prod.fst)).filterMap (scanItem d)

/-- Model of `scan_integrations(config_path)` from `scanner.py`.  The root
resolution: if an entry named `custom_components` exists (file or
directory — the code only calls `cc.exists()`), descend into it, where a
file makes the later `sorted(path.iterdir())` raise `NotADirectoryError`
(modelled `.error`); otherwise an empty root yields `[]`, and a non-empty
root is itself scanned as the container. -/
def scan_integrations (root : List (String × FSEntry)) : Except Unit (List IntegrationInfo) :=
  match lookupFS root "custom_components" with
  | some (.dir cc) => .ok (scanDir cc)
  | some (.file _) => .error ()
  | none => if root.isEmpty then .ok [] else .ok (scanDir root)

/-! ## Helper lemmas about sorting -/

theorem length_all_keys (source : StrMap) :
    (all_keys source).length = source.length := by
  unfold all_keys sortedStrings
  rw [(List.perm_insertionSort strLe _).length_eq, List.length_map]

theorem countP_all_keys (source : StrMap) (p : String → Bool) :
    ((all_keys source).filter p).length = (source.map Prod.fst).countP p := by
  rw [← List.countP_eq_length_filter]
  exact (List.perm_insertionSort strLe _).countP_eq p

/-! ## Claim C3: coverage statistics -/

/-- C3: for every loaded source and target table, `get_coverage_stats`
returns `total = ` number of source keys, `translated = ` number of source
keys whose target lookup yields a non-empty string, and
`percentage = translated/total*100` when `total > 0` and `0` otherwise; in
particular `total = 0` gives `0` and `total = 4, translated = 2` gives
`50.0`. -/
theorem c3_get_coverage_stats (source target : StrMap) :
    get_coverage_stats source target =
      (source.length,
       (source.map Prod.fst).countP (targetTruthy target),
       if 0 < source.length
       then ((source.map Prod.fst).countP (targetTruthy target) : ℚ) /
              (source.length : ℚ) * 100
       else 0) ∧
    get_coverage_stats [] [] = (0, 0, 0) ∧
    get_coverage_stats [("a", "1"), ("b", "2"), ("c", "3"), ("d", "4")]
        [("a", "x"), ("b", "y")] = (4, 2, 50) := by
  have hgen : ∀ s t : StrMap, get_coverage_stats s t =
      (s.length,
       (s.map Prod.fst).countP (targetTruthy t),
       if 0 < s.length
       then ((s.map Prod.fst).countP (targetTruthy t) : ℚ) / (s.length : ℚ) * 100
       else 0) := by
    intro s t
    simp only [get_coverage_stats]
    rw [length_all_keys, countP_all_keys]
  refine ⟨hgen source target, rfl, ?_⟩
  rw [hgen]
  have h2 : ([("a", "1"), ("b", "2"), ("c", "3"), ("d", "4")].map
      (Prod.fst (α := String) (β := String))).countP
      (targetTruthy [("a", "x"), ("b", "y")]) = 2 := by decide
  rw [h2]
  norm_num

/-! ## Claim C9: a bare string at the top level -/

/-- C9: flattening a bare string `s` with the empty prefix produces the
single-entry table mapping the empty key to `s`; a `strings.json` whose
top-level value is a string therefore extracts to a table whose only key
is the empty string. -/
theorem c9_flatten_top_level_string (s : String) :
    flatten_json (.str s) "" [] = [("", s)] ∧
    extract_strings_from_component [("strings.json", .file (.ok (.str s)))]
      = [("", s)] ∧
    (extract_strings_from_component
        [("strings.json", .file (.ok (.str s)))]).map Prod.fst = [""] :=
  ⟨rfl, rfl, rfl⟩

/-! ## Claim C7: PO escaping -/

/-- Single-pass escape as the claim words it: each backslash becomes a
double backslash and each double quote becomes backslash-quote.  Stated
from the claim for comparison with the code's two sequential
`str.replace` passes. -/
def escapeSpec (s : String) : String :=
  String.mk (s.data.flatMap (fun c =>
    if c = '\\' then ['\\', '\\'] else if c = '"' then ['\\', '"'] else [c]))

theorem replaceChar_escape_eq (cs : List Char) :
    replaceChar '"' ['\\', '"'] (replaceChar '\\' ['\\', '\\'] cs) =
      cs.flatMap (fun c =>
        if c = '\\' then ['\\', '\\'] else if c = '"' then ['\\', '"'] else [c]) := by
  induction cs with
  | nil => rfl
  | cons c cs ih =>
    by_cases h1 : c = '\\'
    · subst h1
      simp only [replaceChar, if_pos rfl, List.flatMap_cons]
      rw [← ih]
      rfl
    · by_cases h2 : c = '"'
      · subst h2
        simp only [replaceChar, List.flatMap_cons, if_neg h1, if_pos rfl, if_neg (by decide : ('"' : Char) ≠ '\\')]
        rw [← ih]
        rfl
      · simp only [replaceChar, List.flatMap_cons, if_neg h1, if_neg h2]
        rw [← ih]
        rfl

/-- C7: in PO export each backslash of a source or target string is
replaced by a double backslash and each double quote by backslash-quote
before embedding; the source string `He said "hi"\` appears in its
`msgid` line as `He said \"hi\"\\`. -/
theorem c7_po_escaping :
    (∀ s : String, escapePo s = escapeSpec s) ∧
    escapePo "He said \"hi\"\\" = "He said \\\"hi\\\"\\\\" ∧
    export_po_entries [("x", "He said \"hi\"\\")] [] =
      "#. x\nmsgid \"He said \\\"hi\\\"\\\\\"\nmsgstr \"\"\n\n" := by
  refine ⟨fun s => ?_, by decide, by decide⟩
  unfold escapePo escapeSpec
  rw [replaceChar_escape_eq]

/-! ## Claim C8: CSV export rows -/

/-- Row sequence as the claim words it — header, one row per string,
then directly the trailing identification row.  Stated from the claim for
comparison with the code, which also writes a blank row before the
identification row. -/
def claimedCsvRows (version : String) (data : List StringRow) : List (List String) :=
  [["Key", "Source", "Target", "Status"]]
    ++ data.map (fun r => [r.key, r.source, r.target, r.status])
    ++ [[csvIdentRow version]]

/-- C8 counterexample: for source `{"x": "Hello"}` and empty target the
CSV rows are not header + string rows + identification row — the code
also writes an empty row before the identification row. -/
theorem c8_counterexample :
    export_csv_rows "1.0" (get_strings_data [("x", "Hello")] []) ≠
      claimedCsvRows "1.0" (get_strings_data [("x", "Hello")] []) := by
  decide

/-- C8 (amended): CSV export writes the header row, then exactly one row
per string in list order, then a blank row, then the identification row;
for source `{"x": "Hello"}` and empty target the string row is
`x,Hello,,missing` and the coverage stats are `(1, 0, 0.0)`. -/
theorem c8_csv_rows (version : String) (data : List StringRow) :
    export_csv_rows version data =
      [["Key", "Source", "Target", "Status"]]
        ++ data.map (fun r => [r.key, r.source, r.target, r.status])
        ++ [[], [csvIdentRow version]] ∧
    get_strings_data [("x", "Hello")] [] =
      [{ key := "x", source := "Hello", target := "", status := "missing" }] ∧
    get_coverage_stats [("x", "Hello")] [] = (1, 0, 0) := by
  refine ⟨by simp [export_csv_rows], by decide, ?_⟩
  have h1 : (get_coverage_stats [("x", "Hello")] []).1 = 1 := by decide
  have h21 : (get_coverage_stats [("x", "Hello")] []).2.1 = 0 := by decide
  have h22 : (get_coverage_stats [("x", "Hello")] []).2.2 =
      ((0 : Nat) : ℚ) / ((1 : Nat) : ℚ) * 100 := rfl
  refine Prod.ext h1 (Prod.ext h21 ?_)
  rw [h22]
  norm_num

/-! ## Claim C5: error degradation -/

/-- C5 counterexample: `export_ha_json` does not degrade on every input —
on a table where the dotted path of one key walks through another key's
string leaf, the nested-dict construction raises
(`TypeError`/`AttributeError` in Python, `.error` in the model) instead of
producing a result. -/
theorem c5_counterexample :
    unflattenE [("a", "x"), ("a.b", "y")] = .error () := by decide

/-- C5 (amended): malformed JSON or an I/O error while reading a single
`strings.json` or translation file is caught and the file contributes
nothing — an empty string table from the extractors, `string_count = 0`
and `0` coverage in the scanner — but the raising path of `export_ha_json`
shown in the counterexample (and export write failures, which are
surfaced to the caller) prevent the universal "no core function raises". -/
theorem c5_read_errors_degrade
    (fc td : List (String × FSEntry)) (lang nm : String) (n : Nat)
    (h1 : lookupFS fc "strings.json" = some (.file (.error ())))
    (h2 : lookupFS fc "translations" = some (.dir td))
    (h3 : lookupFS td (lang ++ ".json") = some (.file (.error ()))) :
    extract_strings_from_component fc = [] ∧
    load_translations_for_component fc lang = [] ∧
    (integrationInfo nm fc).string_count = 0 ∧
    langCoverage n (readEntryJson (lookupFS td (lang ++ ".json"))) = 0 := by
  refine ⟨?_, ?_, ?_, ?_⟩
  · unfold extract_strings_from_component
    rw [h1]
    rfl
  · simp only [load_translations_for_component, h2, h3, readEntryJson]
  · simp only [integrationInfo, h1]
    rfl
  · rw [h3]
    rfl

/-- Witness for `c5_read_errors_degrade` at a concrete component
directory. -/
theorem c5_read_errors_degrade_witness :
    extract_strings_from_component
        [("strings.json", .file (.error ())),
         ("translations", .dir [("sv.json", .file (.error ()))])] = [] ∧
    load_translations_for_component
        [("strings.json", .file (.error ())),
         ("translations", .dir [("sv.json", .file (.error ()))])] "sv" = [] ∧
    (integrationInfo "comp"
        [("strings.json", .file (.error ())),
         ("translations", .dir [("sv.json", .file (.error ()))])]).string_count = 0 ∧
    langCoverage 3 (readEntryJson
        (lookupFS [("sv.json", .file (.error ()))] ("sv" ++ ".json"))) = 0 :=
  c5_read_errors_degrade
    [("strings.json", .file (.error ())),
     ("translations", .dir [("sv.json", .file (.error ()))])]
    [("sv.json", .file (.error ()))] "sv" "comp" 3 rfl rfl rfl

/-! ## Claim C6: scan root resolution -/

/-- C6 counterexample: a root whose `custom_components` entry is a file
(not a subdirectory).  The claim's rule would treat the non-empty root as
the container (yielding no integrations, since its only entry is a file),
but the code takes `cc.exists()` and then `sorted(path.iterdir())` raises
`NotADirectoryError`. -/
theorem c6_counterexample :
    scan_integrations [("custom_components", FSEntry.file (.ok .other))]
      = .error () ∧
    [("custom_components", FSEntry.file (.ok .other))]
      ≠ ([] : List (String × FSEntry)) ∧
    scanDir [("custom_components", FSEntry.file (.ok .other))] = [] := by
  refine ⟨rfl, by simp, by decide⟩

/-- C6 (amended): if the root contains an entry named `custom_components`,
the scan descends into it — enumerating it when it is a directory and
failing with `NotADirectoryError` when it is a file; otherwise an empty
root reports no integrations and a non-empty root is itself treated as
the container of integration subdirectories. -/
theorem c6_scan_root_resolution (root cc : List (String × FSEntry))
    (c : Except Unit Json) :
    (lookupFS root "custom_components" = some (.dir cc) →
      scan_integrations root = .ok (scanDir cc)) ∧
    (lookupFS root "custom_components" = some (.file c) →
      scan_integrations root = .error ()) ∧
    (lookupFS root "custom_components" = none → root = [] →
      scan_integrations root = .ok []) ∧
    (lookupFS root "custom_components" = none → root ≠ [] →
      scan_integrations root = .ok (scanDir root)) := by
  refine ⟨?_, ?_, ?_, ?_⟩
  · intro h
    unfold scan_integrations
    rw [h]
  · intro h
    unfold scan_integrations
    rw [h]
  · intro _ h'
    subst h'
    rfl
  · intro h h'
    unfold scan_integrations
    rw [h]
    simp [List.isEmpty_iff, h']

/-- Witness for `c6_scan_root_resolution`: a root with a
`custom_components` subdirectory is enumerated inside it. -/
theorem c6_scan_root_resolution_witness :
    scan_integrations [("custom_components", FSEntry.dir [])]
      = .ok (scanDir []) :=
  (c6_scan_root_resolution [("custom_components", FSEntry.dir [])] []
    (.ok .other)).1 rfl

/-! ## Claim C4: scanner per-language coverage -/

/-- Per-language coverage as the claim words it: 100 times the number of
source keys that have a non-empty corresponding value in the flattened
target table, divided by the source key count, and 0 when that count is 0.
Stated from the claim for comparison with the code. -/
def coverageSpec (source target : StrMap) : ℚ :=
  if 0 < source.length
  then ((source.countP (fun kv => targetTruthy target kv.1)) : ℚ) /
         (source.length : ℚ) * 100
  else 0

/-- A concrete scan root for the C4 counterexample: one integration whose
source has one key `a` and whose Swedish translation has two keys `b`,
`c`, none of which corresponds to a source key. -/
def c4sub : List (String × FSEntry) :=
  [("strings.json", .file (.ok (.obj (.cons "a" (.str "x") .nil)))),
   ("translations", .dir
     [("sv.json", .file (.ok (.obj (.cons "b" (.str "y")
        (.cons "c" (.str "z") .nil)))))])]

/-- C4 counterexample: the scanner reports `len(tstrings) / string_count *
100`, i.e. 200% for the root above, while the claimed formula (matched
non-empty source keys over source count) gives 0%. -/
theorem c4_counterexample :
    scan_integrations [("myint", .dir c4sub)]
      = .ok [integrationInfo "myint" c4sub] ∧
    (integrationInfo "myint" c4sub).string_count = 1 ∧
    (integrationInfo "myint" c4sub).coverage = [("sv", 200)] ∧
    coverageSpec [("a", "x")] [("b", "y"), ("c", "z")] = 0 ∧
    (200 : ℚ) ≠ 0 := by
  refine ⟨rfl, by decide, ?_, ?_, by norm_num⟩
  · have h : (integrationInfo "myint" c4sub).coverage =
        [("sv", ((2 : Nat) : ℚ) / ((1 : Nat) : ℚ) * 100)] := rfl
    rw [h, show ((2 : Nat) : ℚ) / ((1 : Nat) : ℚ) * 100 = (200 : ℚ) by norm_num]
  · have h : coverageSpec [("a", "x")] [("b", "y"), ("c", "z")] =
        ((0 : Nat) : ℚ) / ((1 : Nat) : ℚ) * 100 := rfl
    rw [h]
    norm_num

theorem isSuffixOf_json_append (lang : String) :
    (".json".data.isSuffixOf (lang ++ ".json").data) = true := by
  rw [String.data_append]
  exact List.isSuffixOf_iff_suffix.mpr ⟨lang.data, rfl⟩

theorem jsonStem_append (lang : String) (h : lang ≠ "") :
    jsonStem (lang ++ ".json") = lang := by
  have hne : lang ++ ".json" ≠ ".json" := by
    intro he
    apply h
    have := congrArg String.data he
    rw [String.data_append] at this
    have hlen := congrArg List.length this
    rw [List.length_append] at hlen
    have : lang.data = [] := List.eq_nil_of_length_eq_zero (by omega)
    exact String.ext this
  unfold jsonStem
  rw [if_neg hne]
  apply String.ext
  show ((lang ++ ".json").data.take ((lang ++ ".json").data.length - 5)) = lang.data
  rw [String.data_append, List.length_append]
  have h5 : (".json".data).length = 5 := rfl
  rw [h5]
  have : lang.data.length + 5 - 5 = lang.data.length := by omega
  rw [this]
  exact List.take_left lang.data ".json".data

theorem lookupFS_head (n : String) (e : FSEntry) (rest : List (String × FSEntry)) :
    lookupFS ((n, e) :: rest) n = some e := by
  simp [lookupFS]

theorem scanItem_grabs (d : List (String × FSEntry)) (name : String)
    (sub : List (String × FSEntry))
    (hl : lookupFS d name = some (.dir sub)) (h2 : startsWithDot name = false)
    (h3 : name ≠ "__pycache__") :
    scanItem d name = some (integrationInfo name sub) := by
  unfold scanItem
  rw [hl]
  simp [h2, h3]

/-- C4 (amended): for an integration directory with a readable
`strings.json` and a translation file `<lang>.json`, the scanner reports
for that language `len(flattened target) / len(flattened source) * 100`
when the source count is positive and `0` otherwise — the count of target
keys, regardless of whether they correspond to source keys or have
non-empty values. -/
theorem c4_scanner_coverage (nm lang : String) (sdata tdata : Json)
    (h1 : nm ≠ "custom_components") (h2 : startsWithDot nm = false)
    (h3 : nm ≠ "__pycache__") (h4 : lang ≠ "") :
    scan_integrations
        [(nm, .dir [("strings.json", .file (.ok sdata)),
                    ("translations", .dir [((lang ++ ".json"), .file (.ok tdata))])])]
      = .ok [integrationInfo nm
              [("strings.json", .file (.ok sdata)),
               ("translations", .dir [((lang ++ ".json"), .file (.ok tdata))])]] ∧
    (integrationInfo nm
        [("strings.json", .file (.ok sdata)),
         ("translations", .dir [((lang ++ ".json"), .file (.ok tdata))])]).string_count
      = (flatten_json sdata "" []).length ∧
    (integrationInfo nm
        [("strings.json", .file (.ok sdata)),
         ("translations", .dir [((lang ++ ".json"), .file (.ok tdata))])]).languages
      = [lang] ∧
    (integrationInfo nm
        [("strings.json", .file (.ok sdata)),
         ("translations", .dir [((lang ++ ".json"), .file (.ok tdata))])]).coverage
      = [(lang, langCoverage (flatten_json sdata "" []).length (.ok tdata))] ∧
    (∀ n : Nat, 0 < n → langCoverage n (.ok tdata) =
      ((flatten_json tdata "" []).length : ℚ) / (n : ℚ) * 100) ∧
    langCoverage 0 (.ok tdata) = 0 := by
  have hlangs : sortedStrings ((globJsonNames
      [((lang ++ ".json"), FSEntry.file (.ok tdata))]).map jsonStem) = [lang] := by
    have hsuf := isSuffixOf_json_append lang
    simp only [globJsonNames, List.map_cons, List.map_nil, List.filter_cons,
      List.filter_nil, hsuf, if_pos]
    rw [jsonStem_append lang h4]
    rfl
  refine ⟨?_, rfl, ?_, ?_, ?_, rfl⟩
  · unfold scan_integrations
    have hcc : lookupFS [(nm, FSEntry.dir [("strings.json", .file (.ok sdata)),
        ("translations", .dir [((lang ++ ".json"), .file (.ok tdata))])])]
        "custom_components" = none := by
      simp only [lookupFS, if_neg h1]
    rw [hcc]
    show Except.ok (scanDir _) = _
    unfold scanDir
    show Except.ok (List.filterMap _ [nm]) = _
    rw [List.filterMap_cons,
      scanItem_grabs _ nm _ (lookupFS_head nm _ []) h2 h3]
    rfl
  · show sortedStrings ((globJsonNames
      [((lang ++ ".json"), FSEntry.file (.ok tdata))]).map jsonStem) = [lang]
    exact hlangs
  · show (sortedStrings ((globJsonNames
        [((lang ++ ".json"), FSEntry.file (.ok tdata))]).map jsonStem)).foldl
        (fun acc l =>
          dictInsertQ acc l (langCoverage (flatten_json sdata "" []).length
            (readEntryJson (lookupFS [((lang ++ ".json"), FSEntry.file (.ok tdata))]
              (l ++ ".json"))))) []
      = [(lang, langCoverage (flatten_json sdata "" []).length (.ok tdata))]
    rw [hlangs]
    show dictInsertQ [] lang (langCoverage (flatten_json sdata "" []).length
      (readEntryJson (lookupFS [((lang ++ ".json"), FSEntry.file (.ok tdata))]
        (lang ++ ".json")))) = _
    rw [lookupFS_head]
    rfl
  · intro n hn
    simp only [langCoverage, gt_iff_lt, if_pos hn]

/-- Witness for `c4_scanner_coverage` at a concrete integration. -/
theorem c4_scanner_coverage_witness :
    scan_integrations
        [("myint", .dir [("strings.json", .file (.ok (.obj (.cons "a" (.str "x") .nil)))),
                    ("translations", .dir [(("sv" ++ ".json"), .file (.ok .other))])])]
      = .ok [integrationInfo "myint"
              [("strings.json", .file (.ok (.obj (.cons "a" (.str "x") .nil)))),
               ("translations", .dir [(("sv" ++ ".json"), .file (.ok .other))])]] ∧
    (integrationInfo "myint"
        [("strings.json", .file (.ok (.obj (.cons "a" (.str "x") .nil)))),
         ("translations", .dir [(("sv" ++ ".json"), .file (.ok .other))])]).string_count
      = (flatten_json (.obj (.cons "a" (.str "x") .nil)) "" []).length ∧
    (integrationInfo "myint"
        [("strings.json", .file (.ok (.obj (.cons "a" (.str "x") .nil)))),
         ("translations", .dir [(("sv" ++ ".json"), .file (.ok .other))])]).languages
      = ["sv"] ∧
    (integrationInfo "myint"
        [("strings.json", .file (.ok (.obj (.cons "a" (.str "x") .nil)))),
         ("translations", .dir [(("sv" ++ ".json"), .file (.ok .other))])]).coverage
      = [("sv", langCoverage (flatten_json (.obj (.cons "a" (.str "x") .nil)) "" []).length (.ok .other))] ∧
    (∀ n : Nat, 0 < n → langCoverage n (.ok .other) =
      ((flatten_json .other "" []).length : ℚ) / (n : ℚ) * 100) ∧
    langCoverage 0 (.ok .other) = 0 :=
  c4_scanner_coverage "myint" "sv" (.obj (.cons "a" (.str "x") .nil)) .other
    (by decide) (by decide) (by decide) (by decide)

/-! ## Claim C10: deterministic, sorted scan output -/

theorem sorted_sortedStrings (l : List String) :
    List.Sorted strLe (sortedStrings l) :=
  List.sorted_insertionSort strLe l

theorem sortedStrings_perm_eq {l1 l2 : List String} (p : l1.Perm l2) :
    sortedStrings l1 = sortedStrings l2 :=
  List.eq_of_perm_of_sorted
    ((List.perm_insertionSort strLe l1).trans
      (p.trans (List.perm_insertionSort strLe l2).symm))
    (List.sorted_insertionSort strLe l1) (List.sorted_insertionSort strLe l2)

theorem scanItem_shape (d : List (String × FSEntry)) (name : String)
    (i : IntegrationInfo) (h : scanItem d name = some i) :
    ∃ sub, i = integrationInfo name sub := by
  unfold scanItem at h
  split at h
  · split at h
    · exact absurd h (by simp)
    · exact ⟨_, (Option.some_inj.mp h).symm⟩
  · exact absurd h (by simp)

theorem scanItem_name (d : List (String × FSEntry)) (name : String)
    (i : IntegrationInfo) (h : scanItem d name = some i) : i.name = name := by
  obtain ⟨sub, rfl⟩ := scanItem_shape d name i h
  rfl

theorem map_name_scanDir_sublist (d : List (String × FSEntry)) (l : List String) :
    ((l.filterMap (scanItem d)).map (fun i => i.name)).Sublist l := by
  induction l with
  | nil => simp
  | cons x xs ih =>
    rw [List.filterMap_cons]
    cases h : scanItem d x with
    | none => exact ih.cons x
    | some i =>
      rw [List.map_cons, scanItem_name d x i h]
      exact ih.cons₂ x

theorem integrationInfo_languages (nm : String) (sub : List (String × FSEntry)) :
    (integrationInfo nm sub).languages = get_available_languages sub := by
  unfold integrationInfo get_available_languages
  cases h : lookupFS sub "translations" with
  | none => simp only [h]
  | some e =>
    cases e with
    | file c => simp only [h]
    | dir td => simp only [h]

theorem languages_sorted (nm : String) (sub : List (String × FSEntry)) :
    List.Sorted strLe (integrationInfo nm sub).languages := by
  rw [integrationInfo_languages]
  unfold get_available_languages
  cases h : lookupFS sub "translations" with
  | none => simp only [h]; exact List.sorted_nil
  | some e =>
    cases e with
    | file c => simp only [h]; exact List.sorted_nil
    | dir td => simp only [h]; exact sorted_sortedStrings _

theorem lookupFS_perm {d d2 : List (String × FSEntry)} (p : d.Perm d2)
    (hnd : (d.map Prod.fst).Nodup) (n : String) :
    lookupFS d n = lookupFS d2 n := by
  induction p with
  | nil => rfl
  | cons x p ih =>
    obtain ⟨k, e⟩ := x
    simp only [lookupFS]
    by_cases hk : k = n
    · rw [if_pos hk, if_pos hk]
    · rw [if_neg hk, if_neg hk]
      exact ih (List.nodup_cons.mp (by simpa using hnd)).2
  | swap x y l =>
    obtain ⟨k1, e1⟩ := x
    obtain ⟨k2, e2⟩ := y
    have hne : k2 ≠ k1 := by
      simp only [List.map_cons, List.nodup_cons, List.mem_cons] at hnd
      exact fun h => hnd.1 (Or.inl h)
    simp only [lookupFS]
    by_cases h2 : k2 = n
    · rw [if_pos h2, if_neg (fun h1 : k1 = n => hne (h2.trans h1.symm)), if_pos h2]
    · by_cases h1 : k1 = n
      · rw [if_neg h2, if_pos h1, if_pos h1]
      · rw [if_neg h2, if_neg h1, if_neg h1, if_neg h2]
  | trans p1 p2 ih1 ih2 =>
    rw [ih1 hnd, ih2 (((p1.map Prod.fst).nodup_iff).mp hnd)]

theorem scanDir_perm {d d2 : List (String × FSEntry)} (p : d.Perm d2)
    (hnd : (d.map Prod.fst).Nodup) : scanDir d = scanDir d2 := by
  unfold scanDir
  rw [sortedStrings_perm_eq (p.map Prod.fst)]
  apply List.filterMap_congr
  intro x _
  unfold scanItem
  rw [lookupFS_perm p hnd x]

/-- C10: the scan output is deterministic and sorted — integration entries
come out in ascending name order regardless of filesystem enumeration
order (a permutation of the directory listing gives the same result), and
each entry's language list is ascending and equal to what
`get_available_languages` returns for that integration directory. -/
theorem c10_scan_deterministic_order (d d2 : List (String × FSEntry))
    (hperm : d.Perm d2) (hnd : (d.map Prod.fst).Nodup) :
    List.Sorted strLe ((scanDir d).map (fun i => i.name)) ∧
    scanDir d = scanDir d2 ∧
    (∀ i ∈ scanDir d, List.Sorted strLe i.languages) ∧
    (∀ nm sub, (integrationInfo nm sub).languages = get_available_languages sub) := by
  refine ⟨?_, scanDir_perm hperm hnd, ?_, fun nm sub => integrationInfo_languages nm sub⟩
  · exact List.Pairwise.sublist (map_name_scanDir_sublist d _)
      (sorted_sortedStrings (d.map Prod.fst))
  · intro i hi
    unfold scanDir at hi
    obtain ⟨name, _, hsome⟩ := List.mem_filterMap.mp hi
    obtain ⟨sub, rfl⟩ := scanItem_shape d name i hsome
    exact languages_sorted name sub

/-- Witness for `c10_scan_deterministic_order`: a two-entry directory
listed in reverse order scans to the same sorted result. -/
theorem c10_scan_deterministic_order_witness :
    List.Sorted strLe ((scanDir [("b", FSEntry.dir []), ("a", FSEntry.dir [])]).map
      (fun i => i.name)) ∧
    scanDir [("b", FSEntry.dir []), ("a", FSEntry.dir [])]
      = scanDir [("a", FSEntry.dir []), ("b", FSEntry.dir [])] := by
  have h := c10_scan_deterministic_order
    [("b", FSEntry.dir []), ("a", FSEntry.dir [])]
    [("a", FSEntry.dir []), ("b", FSEntry.dir [])]
    (List.Perm.swap ("a", FSEntry.dir []) ("b", FSEntry.dir []) [])
    (by decide)
  exact ⟨h.1, h.2.1⟩

/-! ## Split/join lemmas for dotted keys

The flattener builds keys with `joinKey`; `export_ha_json` splits them
with `str.split('.')`.  These lemmas relate the two on the character
level. -/

/-- Joining character groups with `'.'`, the inverse direction of
`splitCs` (Python `'.'.join`). -/
def joinCs : List (List Char) → List Char
  | [] => []
  | [g] => g
  | g :: g2 :: gs => g ++ '.' :: joinCs (g2 :: gs)

/-- Joining a list of dotted-key segments into one key string. -/
def joinParts (ps : List String) : String :=
  String.mk (joinCs (ps.map String.data))

theorem splitCs_ne_nil (cs : List Char) : splitCs cs ≠ [] := by
  induction cs with
  | nil => simp [splitCs]
  | cons c rest ih =>
    unfold splitCs
    by_cases h : c = '.'
    · simp [h]
    · rw [if_neg h]
      cases hs : splitCs rest with
      | nil => simp
      | cons g gs => simp

theorem joinCs_splitCs (cs : List Char) : joinCs (splitCs cs) = cs := by
  induction cs with
  | nil => rfl
  | cons c rest ih =>
    unfold splitCs
    by_cases h : c = '.'
    · rw [if_pos h, h]
      cases hs : splitCs rest with
      | nil => exact absurd hs (splitCs_ne_nil rest)
      | cons g gs =>
        rw [hs] at ih
        show '.' :: joinCs (g :: gs) = '.' :: rest
        rw [ih]
    · rw [if_neg h]
      cases hs : splitCs rest with
      | nil => exact absurd hs (splitCs_ne_nil rest)
      | cons g gs =>
        rw [hs] at ih
        cases gs with
        | nil => show c :: g = c :: rest; rw [show joinCs [g] = g from rfl] at ih; rw [ih]
        | cons g2 gs2 =>
          show (c :: g) ++ '.' :: joinCs (g2 :: gs2) = c :: rest
          rw [List.cons_append]
          show c :: joinCs (g :: g2 :: gs2) = c :: rest
          rw [ih]

theorem splitCs_no_dot (cs : List Char) (h : '.' ∉ cs) : splitCs cs = [cs] := by
  induction cs with
  | nil => rfl
  | cons c rest ih =>
    have hc : c ≠ '.' := fun hc => h (List.mem_cons.mpr (Or.inl hc.symm))
    have hrest : '.' ∉ rest := fun hm => h (List.mem_cons_of_mem c hm)
    simp only [splitCs, if_neg hc, ih hrest]

theorem splitCs_append_dot (g cs : List Char) (h : '.' ∉ g) :
    splitCs (g ++ '.' :: cs) = g :: splitCs cs := by
  induction g with
  | nil => simp [splitCs]
  | cons c g' ih =>
    have hc : c ≠ '.' := fun hc => h (List.mem_cons.mpr (Or.inl hc.symm))
    have hg' : '.' ∉ g' := fun hm => h (List.mem_cons_of_mem c hm)
    show splitCs (c :: (g' ++ '.' :: cs)) = (c :: g') :: splitCs cs
    simp only [splitCs, if_neg hc, ih hg']

theorem splitCs_joinCs (gs : List (List Char)) (hne : gs ≠ [])
    (hdf : ∀ g ∈ gs, '.' ∉ g) : splitCs (joinCs gs) = gs := by
  induction gs with
  | nil => exact absurd rfl hne
  | cons g gs' ih =>
    cases gs' with
    | nil =>
      show splitCs (joinCs [g]) = [g]
      exact splitCs_no_dot g (hdf g (List.mem_cons_self g []))
    | cons g2 gs2 =>
      show splitCs (g ++ '.' :: joinCs (g2 :: gs2)) = g :: g2 :: gs2
      rw [splitCs_append_dot g _ (hdf g (List.mem_cons_self g _))]
      rw [ih (by simp) (fun x hx => hdf x (List.mem_cons_of_mem g hx))]

theorem splitCs_segments_no_dot (cs : List Char) :
    ∀ g ∈ splitCs cs, '.' ∉ g := by
  induction cs with
  | nil =>
    intro g hg
    simp only [splitCs, List.mem_singleton] at hg
    simp [hg]
  | cons c rest ih =>
    intro g hg
    unfold splitCs at hg
    by_cases h : c = '.'
    · rw [if_pos h] at hg
      rcases List.mem_cons.mp hg with h1 | h1
      · simp [h1]
      · exact ih g h1
    · rw [if_neg h] at hg
      cases hs : splitCs rest with
      | nil => exact absurd hs (splitCs_ne_nil rest)
      | cons g0 gs0 =>
        rw [hs] at hg
        rcases List.mem_cons.mp hg with h1 | h1
        · subst h1
          intro hmem
          rcases List.mem_cons.mp hmem with h2 | h2
          · exact h h2.symm
          · exact ih g0 (hs ▸ List.mem_cons_self g0 gs0) h2
        · exact ih g (hs ▸ List.mem_cons_of_mem g0 h1)

theorem mk_data (s : String) : String.mk s.data = s := rfl

theorem data_mk (cs : List Char) : (String.mk cs).data = cs := rfl

theorem splitDot_joinParts (ps : List String) (hne : ps ≠ [])
    (hdf : ∀ p ∈ ps, '.' ∉ p.data) : splitDot (joinParts ps) = ps := by
  unfold splitDot joinParts
  rw [data_mk, splitCs_joinCs (ps.map String.data)
    (by simpa using hne)
    (by intro g hg
        obtain ⟨p, hp, rfl⟩ := List.mem_map.mp hg
        exact hdf p hp)]
  rw [List.map_map]
  have : ((fun cs => String.mk cs) ∘ String.data) = id := funext (fun _ => rfl)
  rw [this, List.map_id]

theorem joinCs_snoc (gs : List (List Char)) (g : List Char) (h : gs ≠ []) :
    joinCs (gs ++ [g]) = joinCs gs ++ '.' :: g := by
  induction gs with
  | nil => exact absurd rfl h
  | cons g0 gs' ih =>
    cases gs' with
    | nil => rfl
    | cons g1 gs2 =>
      show g0 ++ '.' :: joinCs ((g1 :: gs2) ++ [g]) = (g0 ++ '.' :: joinCs (g1 :: gs2)) ++ '.' :: g
      rw [ih (by simp)]
      simp

theorem joinParts_nil : joinParts [] = "" := rfl

theorem joinParts_single (k : String) : joinParts [k] = k := rfl

theorem joinParts_ne_empty (ps : List String) (h : ps ≠ []) (h1 : ps ≠ [""]) :
    joinParts ps ≠ "" := by
  cases ps with
  | nil => exact absurd rfl h
  | cons p ps' =>
    cases ps' with
    | nil =>
      intro he
      exact h1 (by rw [show p = "" from String.ext (congrArg String.data he)])
    | cons q qs =>
      intro he
      have := congrArg String.data he
      rw [show (joinParts (p :: q :: qs)).data
          = p.data ++ '.' :: joinCs ((q :: qs).map String.data) from rfl] at this
      simp at this

theorem joinKey_snoc (ps : List String) (k : String) (h1 : ps ≠ [""]) :
    joinKey (joinParts ps) k = joinParts (ps ++ [k]) := by
  cases ps with
  | nil => simp [joinKey, joinParts_nil, joinParts_single]
  | cons p ps' =>
    have hne : joinParts (p :: ps') ≠ "" := joinParts_ne_empty _ (by simp) h1
    unfold joinKey
    rw [if_neg hne]
    apply String.ext
    rw [String.data_append, String.data_append]
    show (joinParts (p :: ps')).data ++ ['.'] ++ k.data
      = (joinParts ((p :: ps') ++ [k])).data
    unfold joinParts
    rw [data_mk, data_mk, List.map_append]
    simp only [List.map_cons, List.map_nil]
    rw [joinCs_snoc (p.data :: ps'.map String.data) k.data (by simp)]
    simp

/-! ## Tree predicates for the round-trip claims -/

/-- A mapping key acceptable for the amended round-trip: non-empty and
containing no dot. -/
def goodKey (k : String) : Bool := decide (k ≠ "") && !(k.data.contains '.')

/-- Python `k in d` on a dict. -/
def containsKeyM : JMembers → String → Bool
  | .nil, _ => false
  | .cons k' _ rest, k => decide (k' = k) || containsKeyM rest k

mutual

/-- The tree hypothesis exactly as claim C1 words it: internal nodes are
mappings (automatic in `Json`) and every leaf is a non-empty string — so
`.other` leaves and empty mappings (leaves that are not strings) are
excluded, but keys are unconstrained. -/
def claimTree : Json → Bool
  | .str s => decide (s ≠ "")
  | .other => false
  | .obj ms => claimTreeMembers ms && decide (ms ≠ .nil)

/-- Pointwise `claimTree` over the members of a mapping. -/
def claimTreeMembers : JMembers → Bool
  | .nil => true
  | .cons _ v rest => claimTree v && claimTreeMembers rest

end

mutual

/-- The amended tree hypothesis: as `claimTree`, and additionally every
mapping key is non-empty, dot-free and distinct within its mapping (key
distinctness is the Python dict invariant, not an amendment). -/
def goodVal : Json → Bool
  | .str s => decide (s ≠ "")
  | .other => false
  | .obj ms => goodMembers ms && decide (ms ≠ .nil)

/-- Pointwise goodness over the members of a mapping, with key
distinctness. -/
def goodMembers : JMembers → Bool
  | .nil => true
  | .cons k v rest =>
    goodKey k && goodVal v && !(containsKeyM rest k) && goodMembers rest

end

mutual

/-- Specification of the entries `_flatten_json` emits for a value under a
given prefix, as a plain append-only list (no dict collision handling). -/
def entriesJson : Json → String → StrMap
  | .str s, pre => [(pre, s)]
  | .other, _ => []
  | .obj ms, pre => entriesMembers ms pre

/-- Entries emitted for the members of a mapping, in order. -/
def entriesMembers : JMembers → String → StrMap
  | .nil, _ => []
  | .cons k v rest, pre => entriesJson v (joinKey pre k) ++ entriesMembers rest pre

end

theorem goodKey_ne (k : String) (h : goodKey k = true) : k ≠ "" := by
  unfold goodKey at h
  exact of_decide_eq_true (Bool.and_elim_left h)

theorem goodKey_no_dot (k : String) (h : goodKey k = true) : '.' ∉ k.data := by
  unfold goodKey at h
  have := Bool.and_elim_right h
  simpa using this

theorem good_ps_ne_single_empty (ps : List String)
    (hps : ∀ q ∈ ps, goodKey q = true) : ps ≠ [""] := by
  intro he
  subst he
  exact goodKey_ne "" (hps "" (by simp)) rfl

theorem joinParts_inj (xs ys : List String) (hx : xs ≠ []) (hy : ys ≠ [])
    (hdx : ∀ q ∈ xs, '.' ∉ q.data) (hdy : ∀ q ∈ ys, '.' ∉ q.data)
    (h : joinParts xs = joinParts ys) : xs = ys := by
  rw [← splitDot_joinParts xs hx hdx, ← splitDot_joinParts ys hy hdy, h]

theorem dictInsert_append (acc : StrMap) (k v : String)
    (h : k ∉ acc.map Prod.fst) : dictInsert acc k v = acc ++ [(k, v)] := by
  induction acc with
  | nil => rfl
  | cons kv rest ih =>
    obtain ⟨k', v'⟩ := kv
    have hk : k' ≠ k := fun he => h (by simp [he])
    simp only [dictInsert, if_neg hk, List.cons_append]
    rw [ih (fun hm => h (by simp [hm]))]

mutual

theorem flatten_append_json (v : Json) (pre : String) (acc : StrMap)
    (hnd : ((entriesJson v pre).map Prod.fst).Nodup)
    (hdisj : ∀ k' ∈ (entriesJson v pre).map Prod.fst, k' ∉ acc.map Prod.fst) :
    flatten_json v pre acc = acc ++ entriesJson v pre := by
  cases v with
  | str s =>
    show dictInsert acc pre s = acc ++ [(pre, s)]
    exact dictInsert_append acc pre s (hdisj pre (by simp [entriesJson]))
  | other =>
    show acc = acc ++ entriesJson .other pre
    simp [entriesJson]
  | obj ms =>
    show flattenMembers ms pre acc = acc ++ entriesMembers ms pre
    exact flatten_append_members ms pre acc hnd hdisj

theorem flatten_append_members (ms : JMembers) (pre : String) (acc : StrMap)
    (hnd : ((entriesMembers ms pre).map Prod.fst).Nodup)
    (hdisj : ∀ k' ∈ (entriesMembers ms pre).map Prod.fst, k' ∉ acc.map Prod.fst) :
    flattenMembers ms pre acc = acc ++ entriesMembers ms pre := by
  cases ms with
  | nil =>
    show acc = acc ++ entriesMembers .nil pre
    simp [entriesMembers]
  | cons k v rest =>
    have hsplit : entriesMembers (.cons k v rest) pre
        = entriesJson v (joinKey pre k) ++ entriesMembers rest pre := rfl
    rw [hsplit] at hnd hdisj ⊢
    rw [List.map_append] at hnd
    obtain ⟨hnd1, hnd2, hdisj12⟩ := List.nodup_append.mp hnd
    have hd1 : ∀ k' ∈ (entriesJson v (joinKey pre k)).map Prod.fst,
        k' ∉ acc.map Prod.fst := fun k' hk' =>
      hdisj k' (by rw [List.map_append]; exact List.mem_append_left _ hk')
    have hd2 : ∀ k' ∈ (entriesMembers rest pre).map Prod.fst,
        k' ∉ (acc ++ entriesJson v (joinKey pre k)).map Prod.fst := by
      intro k' h2
      rw [List.map_append, List.mem_append]
      rintro (ha | h1)
      · exact hdisj k' (by rw [List.map_append]; exact List.mem_append_right _ h2) ha
      · exact hdisj12 h1 h2
    show flattenMembers rest pre (flatten_json v (joinKey pre k) acc) = _
    rw [flatten_append_json v (joinKey pre k) acc hnd1 hd1]
    rw [flatten_append_members rest pre _ hnd2 hd2]
    rw [List.append_assoc]

end

theorem goodVal_obj_iff (ms : JMembers) :
    goodVal (.obj ms) = true ↔ goodMembers ms = true ∧ ms ≠ .nil := by
  simp [goodVal, Bool.and_eq_true, decide_eq_true_eq]

theorem goodMembers_cons_iff (k : String) (v : Json) (rest : JMembers) :
    goodMembers (.cons k v rest) = true ↔
      goodKey k = true ∧ goodVal v = true ∧ containsKeyM rest k = false ∧
        goodMembers rest = true := by
  simp [goodMembers, Bool.and_eq_true, Bool.not_eq_true', and_assoc]

theorem all_no_dot_of_goodKey (l : List String)
    (h : ∀ q ∈ l, goodKey q = true) : ∀ q ∈ l, '.' ∉ q.data :=
  fun q hq => goodKey_no_dot q (h q hq)

theorem goodKey_snoc_all (ps : List String) (k : String)
    (hps : ∀ q ∈ ps, goodKey q = true) (hgk : goodKey k = true) :
    ∀ q ∈ ps ++ [k], goodKey q = true := by
  intro q hq
  rcases List.mem_append.mp hq with h | h
  · exact hps q h
  · simp only [List.mem_singleton] at h
    subst h
    exact hgk

mutual

theorem entries_shape_json (j : Json) (ps : List String) (k' : String)
    (hg : goodVal j = true) (hps : ∀ q ∈ ps, goodKey q = true)
    (hmem : k' ∈ (entriesJson j (joinParts ps)).map Prod.fst) :
    ∃ qs, (∀ q ∈ qs, goodKey q = true) ∧ k' = joinParts (ps ++ qs) := by
  cases j with
  | str s =>
    refine ⟨[], by simp, ?_⟩
    simp only [entriesJson, List.map_cons, List.map_nil,
      List.mem_singleton] at hmem
    simp [hmem]
  | other => exact absurd hg (by simp [goodVal])
  | obj ms =>
    obtain ⟨hg', _⟩ := (goodVal_obj_iff ms).mp hg
    obtain ⟨k, qs, _, hk_good, hqs, heq⟩ :=
      entries_shape_members ms ps k' hg' hps hmem
    refine ⟨k :: qs, ?_, heq⟩
    intro q hq
    rcases List.mem_cons.mp hq with h | h
    · subst h; exact hk_good
    · exact hqs q h

theorem entries_shape_members (ms : JMembers) (ps : List String) (k' : String)
    (hg : goodMembers ms = true) (hps : ∀ q ∈ ps, goodKey q = true)
    (hmem : k' ∈ (entriesMembers ms (joinParts ps)).map Prod.fst) :
    ∃ k qs, containsKeyM ms k = true ∧ goodKey k = true ∧
      (∀ q ∈ qs, goodKey q = true) ∧ k' = joinParts (ps ++ k :: qs) := by
  cases ms with
  | nil => simp [entriesMembers] at hmem
  | cons k v rest =>
    obtain ⟨hgk, hgv, hck, hgr⟩ := (goodMembers_cons_iff k v rest).mp hg
    rw [show entriesMembers (.cons k v rest) (joinParts ps)
        = entriesJson v (joinKey (joinParts ps) k)
          ++ entriesMembers rest (joinParts ps) from rfl,
      List.map_append, List.mem_append] at hmem
    rcases hmem with h1 | h2
    · rw [joinKey_snoc ps k (good_ps_ne_single_empty ps hps)] at h1
      obtain ⟨qs, hqs, heq⟩ := entries_shape_json v (ps ++ [k]) k' hgv
        (goodKey_snoc_all ps k hps hgk) h1
      refine ⟨k, qs, by simp [containsKeyM], hgk, hqs, ?_⟩
      rw [heq, List.append_assoc]
      rfl
    · obtain ⟨k0, qs, hc, hg0, hqs, heq⟩ :=
        entries_shape_members rest ps k' hgr hps h2
      exact ⟨k0, qs, by simp [containsKeyM, hc], hg0, hqs, heq⟩

end

mutual

theorem entries_nodup_json (j : Json) (ps : List String)
    (hg : goodVal j = true) (hps : ∀ q ∈ ps, goodKey q = true) :
    ((entriesJson j (joinParts ps)).map Prod.fst).Nodup := by
  cases j with
  | str s => simp [entriesJson]
  | other => simp [entriesJson]
  | obj ms =>
    obtain ⟨hg', _⟩ := (goodVal_obj_iff ms).mp hg
    exact entries_nodup_members ms ps hg' hps

theorem entries_nodup_members (ms : JMembers) (ps : List String)
    (hg : goodMembers ms = true) (hps : ∀ q ∈ ps, goodKey q = true) :
    ((entriesMembers ms (joinParts ps)).map Prod.fst).Nodup := by
  cases ms with
  | nil => simp [entriesMembers]
  | cons k v rest =>
    obtain ⟨hgk, hgv, hck, hgr⟩ := (goodMembers_cons_iff k v rest).mp hg
    rw [show entriesMembers (.cons k v rest) (joinParts ps)
        = entriesJson v (joinKey (joinParts ps) k)
          ++ entriesMembers rest (joinParts ps) from rfl,
      List.map_append, List.nodup_append]
    refine ⟨?_, entries_nodup_members rest ps hgr hps, ?_⟩
    · rw [joinKey_snoc ps k (good_ps_ne_single_empty ps hps)]
      exact entries_nodup_json v (ps ++ [k]) hgv (goodKey_snoc_all ps k hps hgk)
    · intro k1 h1 h2
      rw [joinKey_snoc ps k (good_ps_ne_single_empty ps hps)] at h1
      obtain ⟨qs1, hq1, e1eq⟩ := entries_shape_json v (ps ++ [k]) k1 hgv
        (goodKey_snoc_all ps k hps hgk) h1
      obtain ⟨k0, qs2, hc0, hg0, hq2, e2eq⟩ :=
        entries_shape_members rest ps k1 hgr hps h2
      have hlists : (ps ++ [k]) ++ qs1 = ps ++ k0 :: qs2 := by
        apply joinParts_inj _ _ (by simp) (by simp)
        · apply all_no_dot_of_goodKey
          intro q hq
          rcases List.mem_append.mp hq with h | h
          · exact goodKey_snoc_all ps k hps hgk q h
          · exact hq1 q h
        · apply all_no_dot_of_goodKey
          intro q hq
          rcases List.mem_append.mp hq with h | h
          · exact hps q h
          · rcases List.mem_cons.mp h with h0 | h0
            · subst h0; exact hg0
            · exact hq2 q h0
        · exact e1eq.symm.trans e2eq
      rw [List.append_assoc] at hlists
      have hkk : k = k0 := by
        have := List.append_cancel_left hlists
        exact (List.cons.injEq _ _ _ _).mp (by simpa using this) |>.1
      rw [← hkk] at hc0
      rw [hc0] at hck
      exact absurd hck (by simp)

end

/-! ## Insert-side machinery for the round-trip proofs -/

/-- A path is vacant in a nested dict when walking it meets only mappings
and stops before the final key exists: exactly the condition under which
the `setdefault` walk of `export_ha_json` creates fresh structure and the
final assignment appends (rather than overwrites) an entry. -/
def vacantB : JMembers → List String → Bool
  | m, [p] => (lookupM m p).isNone
  | m, p :: q :: qs =>
    (match lookupM m p with
     | none => true
     | some (.obj sub) => vacantB sub (q :: qs)
     | some _ => false)
  | _, [] => false

/-- Extending the mapping at the end of a path with extra members,
creating the intermediate chain when the path is vacant (the pure shape of
what repeated `insertPath` calls under one prefix produce). -/
def extendAt : JMembers → List String → JMembers → JMembers
  | m, [], add => appendM m add
  | m, p :: ps, add =>
    match lookupM m p with
    | some (.obj sub) => membersInsert m p (.obj (extendAt sub ps add))
    | none => membersInsert m p (.obj (extendAt .nil ps add))
    | some _ => m

/-- The entry loop of `export_ha_json` from an arbitrary starting dict. -/
def insertAll (m : JMembers) (entries : StrMap) : Except Unit JMembers :=
  entries.foldlM
    (fun acc kv =>
      if kv.2 = "" then pure acc else insertPath acc (splitDot kv.1) kv.2) m

theorem unflattenE_eq_insertAll (s : StrMap) : unflattenE s = insertAll .nil s :=
  rfl

theorem vacantB_cons (m : JMembers) (p : String) (rest : List String)
    (h : rest ≠ []) :
    vacantB m (p :: rest)
      = (match lookupM m p with
         | none => true
         | some (.obj sub) => vacantB sub rest
         | some _ => false) := by
  cases rest with
  | nil => exact absurd rfl h
  | cons q qs => rfl

theorem insertPath_cons (m : JMembers) (p : String) (rest : List String)
    (v : String) (h : rest ≠ []) :
    insertPath m (p :: rest) v
      = (match lookupM m p with
         | some (.obj sub) =>
           (insertPath sub rest v).map (fun s2 => membersInsert m p (.obj s2))
         | some _ => .error ()
         | none =>
           (insertPath .nil rest v).map (fun s2 => membersInsert m p (.obj s2))) := by
  cases rest with
  | nil => exact absurd rfl h
  | cons q qs => rfl

theorem appendM_nil : ∀ (m : JMembers), appendM m .nil = m
  | .nil => rfl
  | .cons _ _ rest => by simp only [appendM, appendM_nil rest]

theorem appendM_assoc : ∀ (a : JMembers) (b c : JMembers),
    appendM (appendM a b) c = appendM a (appendM b c)
  | .nil, _, _ => rfl
  | .cons _ _ rest, b, c => by simp only [appendM, appendM_assoc rest b c]

theorem lookupM_membersInsert_self : ∀ (m : JMembers) (k : String) (j : Json),
    lookupM (membersInsert m k j) k = some j
  | .nil, k, j => by simp [membersInsert, lookupM]
  | .cons k' v rest, k, j => by
    by_cases h : k' = k
    · simp [membersInsert, if_pos h, lookupM]
    · simp only [membersInsert, if_neg h, lookupM]
      exact lookupM_membersInsert_self rest k j

theorem membersInsert_collapse : ∀ (m : JMembers) (k : String) (x y : Json),
    membersInsert (membersInsert m k x) k y = membersInsert m k y
  | .nil, k, x, y => by simp [membersInsert]
  | .cons k' v rest, k, x, y => by
    by_cases h : k' = k
    · simp [membersInsert, if_pos h]
    · simp only [membersInsert, if_neg h, membersInsert_collapse rest k x y]

theorem membersInsert_fresh : ∀ (m : JMembers) (k : String) (j : Json),
    lookupM m k = none → membersInsert m k j = appendM m (.cons k j .nil)
  | .nil, _, _, _ => rfl
  | .cons k' v rest, k, j, h => by
    simp only [lookupM] at h
    by_cases hk : k' = k
    · rw [if_pos hk] at h
      exact absurd h (by simp)
    · rw [if_neg hk] at h
      simp only [membersInsert, if_neg hk, appendM,
        membersInsert_fresh rest k j h]

theorem lookupM_appendM_of_none : ∀ (m : JMembers) (n : JMembers) (k : String),
    lookupM m k = none → lookupM (appendM m n) k = lookupM n k
  | .nil, _, _, _ => rfl
  | .cons k' v rest, n, k, h => by
    simp only [lookupM] at h
    by_cases hk : k' = k
    · rw [if_pos hk] at h
      exact absurd h (by simp)
    · rw [if_neg hk] at h
      simp only [appendM, lookupM, if_neg hk]
      exact lookupM_appendM_of_none rest n k h

theorem containsKeyM_false_lookup : ∀ (m : JMembers) (k : String),
    containsKeyM m k = false → lookupM m k = none
  | .nil, _, _ => rfl
  | .cons k' v rest, k, h => by
    simp only [containsKeyM, Bool.or_eq_false_iff,
      decide_eq_false_iff_not] at h
    simp only [lookupM, if_neg h.1]
    exact containsKeyM_false_lookup rest k h.2

theorem vacant_nil (qs : List String) (h : qs ≠ []) :
    vacantB .nil qs = true := by
  cases qs with
  | nil => exact absurd rfl h
  | cons p rest =>
    cases rest with
    | nil => rfl
    | cons q qs' => rfl

theorem vacant_snoc (qs : List String) : ∀ (m : JMembers) (k : String),
    vacantB m qs = true → vacantB m (qs ++ [k]) = true := by
  induction qs with
  | nil => intro m k h; simp [vacantB] at h
  | cons p rest ih =>
    intro m k h
    cases hrest : rest with
    | nil =>
      subst hrest
      simp only [vacantB, Option.isNone_iff_eq_none] at h
      rw [List.cons_append, List.nil_append,
        vacantB_cons m p [k] (by simp), h]
    | cons q qs' =>
      subst hrest
      rw [vacantB_cons m p (q :: qs') (by simp)] at h
      rw [List.cons_append, vacantB_cons m p ((q :: qs') ++ [k]) (by simp)]
      cases hl : lookupM m p with
      | none => simp [hl]
      | some e =>
        rw [hl] at h
        cases e with
        | obj sub =>
          simp only at h
          simp only
          exact ih sub k h
        | str s => simp at h
        | other => simp at h

theorem extendAt_comp (ps : List String) : ∀ (m A B : JMembers),
    extendAt (extendAt m ps A) ps B = extendAt m ps (appendM A B) := by
  induction ps with
  | nil =>
    intro m A B
    exact appendM_assoc m A B
  | cons p ps ih =>
    intro m A B
    cases hl : lookupM m p with
    | none =>
      simp only [extendAt, hl]
      rw [lookupM_membersInsert_self]
      simp only
      rw [membersInsert_collapse, ih]
    | some e =>
      cases e with
      | obj sub =>
        simp only [extendAt, hl]
        rw [lookupM_membersInsert_self]
        simp only
        rw [membersInsert_collapse, ih]
      | str s => simp only [extendAt, hl]
      | other => simp only [extendAt, hl]

theorem vacant_extendAt (ps : List String) : ∀ (m A : JMembers) (k : String),
    vacantB m (ps ++ [k]) = true → containsKeyM A k = false →
    vacantB (extendAt m ps A) (ps ++ [k]) = true := by
  induction ps with
  | nil =>
    intro m A k hv hA
    simp only [List.nil_append, vacantB, Option.isNone_iff_eq_none] at hv ⊢
    show lookupM (appendM m A) k = none
    rw [lookupM_appendM_of_none m A k hv]
    exact containsKeyM_false_lookup A k hA
  | cons p ps ih =>
    intro m A k hv hA
    rw [List.cons_append, vacantB_cons m p (ps ++ [k]) (by simp)] at hv
    rw [List.cons_append]
    cases hl : lookupM m p with
    | none =>
      show vacantB (extendAt m (p :: ps) A) (p :: (ps ++ [k])) = true
      simp only [extendAt, hl]
      rw [vacantB_cons _ p (ps ++ [k]) (by simp), lookupM_membersInsert_self]
      simp only
      exact ih .nil A k (vacant_nil (ps ++ [k]) (by simp)) hA
    | some e =>
      rw [hl] at hv
      cases e with
      | obj sub =>
        simp only at hv
        show vacantB (extendAt m (p :: ps) A) (p :: (ps ++ [k])) = true
        simp only [extendAt, hl]
        rw [vacantB_cons _ p (ps ++ [k]) (by simp), lookupM_membersInsert_self]
        simp only
        exact ih sub A k hv hA
      | str s => simp at hv
      | other => simp at hv

theorem insertPath_fresh (ps : List String) : ∀ (m : JMembers) (last v : String),
    vacantB m (ps ++ [last]) = true →
    insertPath m (ps ++ [last]) v = .ok (extendAt m ps (.cons last (.str v) .nil)) := by
  induction ps with
  | nil =>
    intro m last v hv
    simp only [List.nil_append, vacantB, Option.isNone_iff_eq_none] at hv
    show insertPath m [last] v = .ok (appendM m (.cons last (.str v) .nil))
    simp only [insertPath]
    rw [membersInsert_fresh m last (.str v) hv]
  | cons p ps ih =>
    intro m last v hv
    rw [List.cons_append, vacantB_cons m p (ps ++ [last]) (by simp)] at hv
    rw [List.cons_append, insertPath_cons m p (ps ++ [last]) v (by simp)]
    cases hl : lookupM m p with
    | none =>
      simp only
      rw [ih .nil last v (vacant_nil (ps ++ [last]) (by simp))]
      show Except.ok (membersInsert m p (.obj (extendAt .nil ps (.cons last (.str v) .nil)))) = _
      simp only [extendAt, hl]
    | some e =>
      rw [hl] at hv
      cases e with
      | obj sub =>
        simp only at hv ⊢
        rw [ih sub last v hv]
        show Except.ok (membersInsert m p (.obj (extendAt sub ps (.cons last (.str v) .nil)))) = _
        simp only [extendAt, hl]
      | str s => simp at hv
      | other => simp at hv

theorem extendAt_snoc (ps : List String) : ∀ (m A : JMembers) (last : String),
    vacantB m (ps ++ [last]) = true →
    extendAt m (ps ++ [last]) A = extendAt m ps (.cons last (.obj A) .nil) := by
  induction ps with
  | nil =>
    intro m A last hv
    simp only [List.nil_append, vacantB, Option.isNone_iff_eq_none] at hv
    show extendAt m [last] A = appendM m (.cons last (.obj A) .nil)
    simp only [extendAt, hv]
    rw [membersInsert_fresh m last (.obj (appendM .nil A)) hv]
    rfl
  | cons p ps ih =>
    intro m A last hv
    rw [List.cons_append, vacantB_cons m p (ps ++ [last]) (by simp)] at hv
    rw [List.cons_append]
    cases hl : lookupM m p with
    | none =>
      show extendAt m (p :: (ps ++ [last])) A = _
      simp only [extendAt, hl]
      rw [ih .nil A last (vacant_nil (ps ++ [last]) (by simp))]
    | some e =>
      rw [hl] at hv
      cases e with
      | obj sub =>
        simp only at hv
        show extendAt m (p :: (ps ++ [last])) A = _
        simp only [extendAt, hl]
        rw [ih sub A last hv]
      | str s => simp at hv
      | other => simp at hv

theorem insertAll_append (m : JMembers) (l1 l2 : StrMap) :
    insertAll m (l1 ++ l2)
      = (insertAll m l1) >>= (fun m1 => insertAll m1 l2) := by
  unfold insertAll
  rw [List.foldlM_append]

mutual

theorem insertAll_graft_json (j : Json) (ps : List String) (last : String)
    (m : JMembers)
    (hg : goodVal j = true) (hps : ∀ q ∈ ps ++ [last], goodKey q = true)
    (hvac : vacantB m (ps ++ [last]) = true) :
    insertAll m (entriesJson j (joinParts (ps ++ [last])))
      = .ok (extendAt m ps (.cons last j .nil)) := by
  cases j with
  | str s =>
    have hs : s ≠ "" := by simpa [goodVal] using hg
    show insertAll m [(joinParts (ps ++ [last]), s)] = _
    simp only [insertAll, List.foldlM_cons, if_neg hs]
    rw [splitDot_joinParts (ps ++ [last]) (by simp)
      (all_no_dot_of_goodKey _ hps)]
    rw [insertPath_fresh ps m last s hvac]
    rfl
  | other => simp [goodVal] at hg
  | obj ms =>
    obtain ⟨hgm, hne⟩ := (goodVal_obj_iff ms).mp hg
    show insertAll m (entriesMembers ms (joinParts (ps ++ [last]))) = _
    rw [insertAll_graft_members ms (ps ++ [last]) m hgm hps
        (fun k _ => vacant_snoc (ps ++ [last]) m k hvac)
        (Or.inr hne)]
    rw [extendAt_snoc ps m ms last hvac]

theorem insertAll_graft_members (kvs : JMembers) (ps : List String)
    (m : JMembers)
    (hg : goodMembers kvs = true) (hps : ∀ q ∈ ps, goodKey q = true)
    (hvac : ∀ k, containsKeyM kvs k = true → vacantB m (ps ++ [k]) = true)
    (hne : ps = [] ∨ kvs ≠ .nil) :
    insertAll m (entriesMembers kvs (joinParts ps))
      = .ok (extendAt m ps kvs) := by
  cases kvs with
  | nil =>
    rcases hne with h | h
    · subst h
      show insertAll m [] = .ok (appendM m .nil)
      rw [appendM_nil]
      rfl
    · exact absurd rfl h
  | cons k v rest =>
    obtain ⟨hgk, hgv, hck, hgr⟩ := (goodMembers_cons_iff k v rest).mp hg
    show insertAll m (entriesJson v (joinKey (joinParts ps) k)
        ++ entriesMembers rest (joinParts ps)) = _
    rw [joinKey_snoc ps k (good_ps_ne_single_empty ps hps)]
    rw [insertAll_append]
    rw [insertAll_graft_json v ps k m hgv (goodKey_snoc_all ps k hps hgk)
        (hvac k (by simp [containsKeyM]))]
    show insertAll (extendAt m ps (.cons k v .nil))
        (entriesMembers rest (joinParts ps)) = _
    by_cases hrn : rest = .nil
    · subst hrn
      show insertAll _ [] = _
      rfl
    · have hvac' : ∀ k', containsKeyM rest k' = true →
          vacantB (extendAt m ps (.cons k v .nil)) (ps ++ [k']) = true := by
        intro k' hk'
        have hkk' : k ≠ k' := by
          intro he
          rw [← he] at hk'
          rw [hk'] at hck
          exact absurd hck (by simp)
        apply vacant_extendAt ps m (.cons k v .nil) k'
          (hvac k' (by simp [containsKeyM, hk']))
        simp [containsKeyM, hkk']
      rw [insertAll_graft_members rest ps (extendAt m ps (.cons k v .nil))
          hgr hps hvac' (Or.inr hrn)]
      rw [extendAt_comp]
      rfl

end

/-! ## Claim C1: unflatten after flatten -/

/-- C1 counterexample: two trees satisfying the claim's own hypothesis
(mappings inside, non-empty string leaves) that do not survive the round
trip — a key containing a dot is re-split into nesting, and an empty
top-level key holding a mapping loses its level because the empty prefix
is falsy in `_flatten_json`. -/
theorem c1_counterexample :
    claimTree (.obj (.cons "a.b" (.str "x") .nil)) = true ∧
    unflattenE (flatten_json (.obj (.cons "a.b" (.str "x") .nil)) "" [])
      ≠ .ok (JMembers.cons "a.b" (.str "x") .nil) ∧
    claimTree (.obj (.cons "" (.obj (.cons "a" (.str "x") .nil)) .nil)) = true ∧
    unflattenE (flatten_json
        (.obj (.cons "" (.obj (.cons "a" (.str "x") .nil)) .nil)) "" [])
      ≠ .ok (JMembers.cons "" (.obj (.cons "a" (.str "x") .nil)) .nil) := by
  decide

/-- C1 (amended): for every nested tree whose internal nodes are mappings,
whose leaves are all non-empty strings, and whose mapping keys are
non-empty, dot-free and distinct within each mapping, unflattening the
flat table produced by flattening the tree yields the tree back,
structurally equal. -/
theorem c1_flatten_unflatten_roundtrip (ms : JMembers)
    (hg : goodMembers ms = true) :
    unflattenE (flatten_json (.obj ms) "" []) = .ok ms := by
  have hflat : flatten_json (.obj ms) "" [] = entriesMembers ms "" := by
    have h := flatten_append_members ms "" []
      (by
        have := entries_nodup_members ms [] hg (by simp)
        simpa [joinParts_nil] using this)
      (by simp)
    simpa using h
  rw [hflat, unflattenE_eq_insertAll]
  have h := insertAll_graft_members ms [] .nil hg (by simp)
    (fun k _ => vacant_nil ([] ++ [k]) (by simp)) (Or.inl rfl)
  simpa [joinParts_nil] using h

/-- Witness for `c1_flatten_unflatten_roundtrip` at the spec's own example
tree. -/
theorem c1_flatten_unflatten_roundtrip_witness :
    unflattenE (flatten_json (.obj (.cons "a" (.obj (.cons "b" (.str "hello")
        (.cons "c" (.str "world") .nil))) .nil)) "" [])
      = .ok (.cons "a" (.obj (.cons "b" (.str "hello")
        (.cons "c" (.str "world") .nil))) .nil) :=
  c1_flatten_unflatten_roundtrip _ (by decide)

/-! ## Claim C2 machinery: trees produced by `export_ha_json`

The nested dicts `export_ha_json` builds have dot-free keys at every
level (they come from `str.split('.')`), non-empty string leaves, no
empty mappings, and distinct keys per mapping — but keys may be the empty
string below the top level (from keys like `"a..b"`). -/

/-- A key with no dot, as every `split('.')` segment is. -/
def noDotKey (k : String) : Bool := !(k.data.contains '.')

mutual

/-- Wellformedness of a value inside a nested dict built by
`export_ha_json`: non-empty string leaves or non-empty wellformed
mappings. -/
def wfVal2 : Json → Bool
  | .str s => decide (s ≠ "")
  | .other => false
  | .obj ms => wfMembers2 ms && decide (ms ≠ .nil)

/-- Wellformedness of the members of such a mapping: dot-free, distinct
keys with wellformed values. -/
def wfMembers2 : JMembers → Bool
  | .nil => true
  | .cons k v rest =>
    noDotKey k && wfVal2 v && !(containsKeyM rest k) && wfMembers2 rest

end

/-- All top-level keys of a mapping are non-empty (first `split`
segments of keys that do not start with a dot). -/
def topKeysNe : JMembers → Bool
  | .nil => true
  | .cons k _ rest => decide (k ≠ "") && topKeysNe rest

mutual

/-- The leaf value of a nested value at a relative path: `some` exactly
when walking the path lands on a string leaf. -/
def valLeafAt : Json → List String → Option String
  | .str s, [] => some s
  | .obj ms, q :: qs => leafAt ms (q :: qs)
  | _, _ => none

/-- The leaf value of a mapping at a non-empty path. -/
def leafAt : JMembers → List String → Option String
  | .nil, _ => none
  | .cons k v rest, q :: qs =>
    if k = q then valLeafAt v qs else leafAt rest (q :: qs)
  | .cons _ _ _, [] => none

end

theorem splitDot_ne_nil (s : String) : splitDot s ≠ [] := by
  unfold splitDot
  intro h
  exact splitCs_ne_nil s.data (List.map_eq_nil.mp h)

theorem okSegs_splitDot (s : String) : ∀ q ∈ splitDot s, '.' ∉ q.data := by
  intro q hq
  unfold splitDot at hq
  obtain ⟨cs, hcs, rfl⟩ := List.mem_map.mp hq
  rw [data_mk]
  exact splitCs_segments_no_dot s.data cs hcs

theorem joinParts_splitDot (s : String) : joinParts (splitDot s) = s := by
  unfold joinParts splitDot
  rw [List.map_map]
  have : (String.data ∘ fun cs => String.mk cs) = id := funext (fun _ => rfl)
  rw [this, List.map_id]
  exact String.ext (joinCs_splitCs s.data)

theorem splitDot_inj (a b : String) (h : splitDot a = splitDot b) : a = b := by
  rw [← joinParts_splitDot a, ← joinParts_splitDot b, h]

theorem joinCs_append (xs ys : List (List Char)) (hx : xs ≠ []) (hy : ys ≠ []) :
    joinCs (xs ++ ys) = joinCs xs ++ '.' :: joinCs ys := by
  induction xs with
  | nil => exact absurd rfl hx
  | cons g gs ih =>
    cases gs with
    | nil =>
      cases ys with
      | nil => exact absurd rfl hy
      | cons y ys' => rfl
    | cons g1 gs' =>
      show g ++ '.' :: joinCs ((g1 :: gs') ++ ys)
        = (g ++ '.' :: joinCs (g1 :: gs')) ++ '.' :: joinCs ys
      rw [ih (by simp), List.append_assoc]
      rfl

theorem joinParts_append_data (xs ys : List String) (hx : xs ≠ []) (hy : ys ≠ []) :
    (joinParts (xs ++ ys)).data
      = (joinParts xs).data ++ '.' :: (joinParts ys).data := by
  unfold joinParts
  rw [data_mk, data_mk, data_mk, List.map_append]
  exact joinCs_append (xs.map String.data) (ys.map String.data)
    (by simpa using hx) (by simpa using hy)

theorem joinParts_prefix (xs ys : List String) (hx : xs ≠ []) (hy : ys ≠ []) :
    (joinParts xs).data.isPrefixOf (joinParts (xs ++ ys)).data = true := by
  rw [joinParts_append_data xs ys hx hy]
  exact List.isPrefixOf_iff_prefix.mpr ⟨'.' :: (joinParts ys).data, rfl⟩

theorem lookupM_membersInsert_other : ∀ (m : JMembers) (k k' : String) (j : Json),
    k ≠ k' → lookupM (membersInsert m k j) k' = lookupM m k'
  | .nil, k, k', j, h => by simp [membersInsert, lookupM, if_neg h]
  | .cons k0 v rest, k, k', j, h => by
    by_cases h0 : k0 = k
    · subst h0
      simp [membersInsert, lookupM, if_neg h]
    · simp only [membersInsert, if_neg h0, lookupM]
      by_cases h1 : k0 = k'
      · rw [if_pos h1, if_pos h1]
      · rw [if_neg h1, if_neg h1]
        exact lookupM_membersInsert_other rest k k' j h

theorem containsKeyM_appendM : ∀ (a b : JMembers) (k : String),
    containsKeyM (appendM a b) k = (containsKeyM a k || containsKeyM b k)
  | .nil, b, k => by simp [appendM, containsKeyM]
  | .cons k0 v rest, b, k => by
    simp only [appendM, containsKeyM, containsKeyM_appendM rest b k,
      Bool.or_assoc]

theorem containsKeyM_of_lookup_some : ∀ (m : JMembers) (k : String) (j : Json),
    lookupM m k = some j → containsKeyM m k = true
  | .nil, k, j, h => by simp [lookupM] at h
  | .cons k0 v rest, k, j, h => by
    simp only [lookupM] at h
    by_cases h0 : k0 = k
    · simp [containsKeyM, h0]
    · rw [if_neg h0] at h
      simp only [containsKeyM, Bool.or_eq_true]
      exact Or.inr (containsKeyM_of_lookup_some rest k j h)

theorem lookupM_some_wfVal2 : ∀ (m : JMembers) (k : String) (j : Json),
    wfMembers2 m = true → lookupM m k = some j → wfVal2 j = true
  | .nil, k, j, _, h => by simp [lookupM] at h
  | .cons k0 v rest, k, j, hw, h => by
    simp only [wfMembers2, Bool.and_eq_true] at hw
    simp only [lookupM] at h
    by_cases h0 : k0 = k
    · rw [if_pos h0] at h
      rw [← Option.some_inj.mp h]
      exact hw.1.1.2
    · rw [if_neg h0] at h
      exact lookupM_some_wfVal2 rest k j hw.2 h

theorem wfVal2_obj_iff (ms : JMembers) :
    wfVal2 (.obj ms) = true ↔ wfMembers2 ms = true ∧ ms ≠ .nil := by
  simp [wfVal2, Bool.and_eq_true, decide_eq_true_eq]

theorem wfMembers2_cons_iff (k : String) (v : Json) (rest : JMembers) :
    wfMembers2 (.cons k v rest) = true ↔
      noDotKey k = true ∧ wfVal2 v = true ∧ containsKeyM rest k = false ∧
        wfMembers2 rest = true := by
  simp [wfMembers2, Bool.and_eq_true, Bool.not_eq_true', and_assoc]

theorem noDotKey_no_dot (k : String) (h : noDotKey k = true) : '.' ∉ k.data := by
  unfold noDotKey at h
  simpa using h

theorem leafAt_nil_path : ∀ (m : JMembers), leafAt m [] = none
  | .nil => rfl
  | .cons _ _ _ => rfl

theorem leafAt_lookup : ∀ (m : JMembers) (q : String) (qs : List String),
    leafAt m (q :: qs)
      = (match lookupM m q with
         | some v => valLeafAt v qs
         | none => none)
  | .nil, _, _ => rfl
  | .cons k v rest, q, qs => by
    by_cases hk : k = q
    · simp only [leafAt, if_pos hk, lookupM]
    · simp only [leafAt, if_neg hk, lookupM, leafAt_lookup rest q qs]

theorem valLeafAt_obj (ms : JMembers) (qs : List String) (h : qs ≠ []) :
    valLeafAt (.obj ms) qs = leafAt ms qs := by
  cases qs with
  | nil => exact absurd rfl h
  | cons q qs' => rfl

mutual

theorem valLeafAt_some_okSegs : ∀ (v : Json) (qs : List String) (v' : String),
    wfVal2 v = true → valLeafAt v qs = some v' → ∀ q ∈ qs, '.' ∉ q.data
  | .str s, [], v', _, _ => by simp
  | .str s, q :: qs, v', _, h => by simp [valLeafAt] at h
  | .other, qs, v', hw, _ => by simp [wfVal2] at hw
  | .obj ms, [], v', _, h => by simp [valLeafAt] at h
  | .obj ms, q :: qs, v', hw, h => by
    have hw' : wfMembers2 ms = true := ((wfVal2_obj_iff ms).mp hw).1
    exact leafAt_some_okSegs ms (q :: qs) v' hw' h

theorem leafAt_some_okSegs : ∀ (m : JMembers) (qs : List String) (v' : String),
    wfMembers2 m = true → leafAt m qs = some v' → ∀ q ∈ qs, '.' ∉ q.data
  | .nil, qs, v', _, h => by simp [leafAt] at h
  | .cons k v rest, [], v', _, h => by simp [leafAt] at h
  | .cons k v rest, q :: qs, v', hw, h => by
    obtain ⟨hnd, hwv, hck, hwr⟩ := (wfMembers2_cons_iff k v rest).mp hw
    by_cases hk : k = q
    · rw [leafAt, if_pos hk] at h
      intro q0 hq0
      rcases List.mem_cons.mp hq0 with h0 | h0
      · subst h0
        subst hk
        exact noDotKey_no_dot k hnd
      · exact valLeafAt_some_okSegs v qs v' hwv h q0 h0
    · rw [leafAt, if_neg hk] at h
      exact leafAt_some_okSegs rest (q :: qs) v' hwr h

end

mutual

theorem valLeaf_exists : ∀ (v : Json), wfVal2 v = true →
    ∃ qs v', valLeafAt v qs = some v'
  | .str s, _ => ⟨[], s, rfl⟩
  | .other, hw => absurd hw (by simp [wfVal2])
  | .obj ms, hw => by
    obtain ⟨hw', hne⟩ := (wfVal2_obj_iff ms).mp hw
    obtain ⟨qs, v', h, hqne⟩ := leaf_exists ms hw' hne
    exact ⟨qs, v', by rw [valLeafAt_obj ms qs hqne]; exact h⟩

theorem leaf_exists : ∀ (m : JMembers), wfMembers2 m = true → m ≠ .nil →
    ∃ qs v', leafAt m qs = some v' ∧ qs ≠ []
  | .nil, _, hne => absurd rfl hne
  | .cons k v rest, hw, _ => by
    obtain ⟨_, hwv, _, _⟩ := (wfMembers2_cons_iff k v rest).mp hw
    obtain ⟨qs, v', h⟩ := valLeaf_exists v hwv
    exact ⟨k :: qs, v', by rw [leafAt, if_pos rfl]; exact h, by simp⟩

end

theorem leafAt_some_ne_nil (m : JMembers) (qs : List String) (v' : String)
    (h : leafAt m qs = some v') : qs ≠ [] := by
  intro he
  subst he
  rw [leafAt_nil_path m] at h
  exact Option.noConfusion h

theorem vacant_of_incomparable : ∀ (ps : List String) (m : JMembers),
    ps ≠ [] → wfMembers2 m = true →
    (∀ qs v', leafAt m qs = some v' → ¬ qs <+: ps ∧ ¬ ps <+: qs) →
    vacantB m ps = true := by
  intro ps
  induction ps with
  | nil => intro m h; exact absurd rfl h
  | cons p rest ih =>
    intro m _ hw hinc
    cases hl : lookupM m p with
    | none =>
      cases rest with
      | nil => simp [vacantB, hl]
      | cons q qs0 => rw [vacantB_cons m p (q :: qs0) (by simp), hl]
    | some j =>
      have hwj : wfVal2 j = true := lookupM_some_wfVal2 m p j hw hl
      cases j with
      | str s =>
        have hleaf : leafAt m [p] = some s := by
          rw [leafAt_lookup m p [], hl]
          rfl
        have := (hinc [p] s hleaf).1
        exact absurd ⟨rest, rfl⟩ this
      | other => simp [wfVal2] at hwj
      | obj sub =>
        obtain ⟨hws, hsne⟩ := (wfVal2_obj_iff sub).mp hwj
        cases rest with
        | nil =>
          obtain ⟨qs', v', hq', hqne⟩ := leaf_exists sub hws hsne
          have hleaf : leafAt m (p :: qs') = some v' := by
            rw [leafAt_lookup m p qs', hl]
            show valLeafAt (.obj sub) qs' = some v'
            rw [valLeafAt_obj sub qs' hqne]
            exact hq'
          have := (hinc (p :: qs') v' hleaf).2
          exact absurd ⟨qs', rfl⟩ this
        | cons q qs0 =>
          rw [vacantB_cons m p (q :: qs0) (by simp), hl]
          apply ih sub (by simp) hws
          intro qs' v' hq'
          have hqne : qs' ≠ [] := leafAt_some_ne_nil sub qs' v' hq'
          have hleaf : leafAt m (p :: qs') = some v' := by
            rw [leafAt_lookup m p qs', hl]
            show valLeafAt (.obj sub) qs' = some v'
            rw [valLeafAt_obj sub qs' hqne]
            exact hq'
          have h2 := hinc (p :: qs') v' hleaf
          constructor
          · intro hpre
            exact h2.1 ((List.cons_prefix_cons).mpr ⟨rfl, hpre⟩)
          · intro hpre
            exact h2.2 ((List.cons_prefix_cons).mpr ⟨rfl, hpre⟩)

theorem lookupM_appendM_left : ∀ (m n : JMembers) (k : String) (j : Json),
    lookupM m k = some j → lookupM (appendM m n) k = some j
  | .nil, _, k, j, h => by simp [lookupM] at h
  | .cons k0 v rest, n, k, j, h => by
    simp only [lookupM] at h
    by_cases h0 : k0 = k
    · rw [if_pos h0] at h
      simp only [appendM, lookupM, if_pos h0]
      exact h
    · rw [if_neg h0] at h
      simp only [appendM, lookupM, if_neg h0]
      exact lookupM_appendM_left rest n k j h

theorem containsKeyM_membersInsert : ∀ (m : JMembers) (k k' : String) (j : Json),
    containsKeyM (membersInsert m k j) k'
      = (containsKeyM m k' || decide (k = k'))
  | .nil, k, k', j => by simp [membersInsert, containsKeyM]
  | .cons k0 v rest, k, k', j => by
    by_cases h0 : k0 = k
    · subst h0
      simp only [membersInsert, if_pos rfl, containsKeyM]
      by_cases h1 : k0 = k'
      · simp [h1]
      · simp [h1]
    · simp only [membersInsert, if_neg h0, containsKeyM,
        containsKeyM_membersInsert rest k k' j, Bool.or_assoc]

theorem wf_appendM_single : ∀ (m : JMembers) (k : String) (j : Json),
    wfMembers2 m = true → lookupM m k = none → noDotKey k = true →
    wfVal2 j = true → wfMembers2 (appendM m (.cons k j .nil)) = true
  | .nil, k, j, _, _, hnd, hwj => by
    simp [appendM, wfMembers2, containsKeyM, hnd, hwj]
  | .cons k0 v rest, k, j, hw, hl, hnd, hwj => by
    obtain ⟨h1, h2, h3, h4⟩ := (wfMembers2_cons_iff k0 v rest).mp hw
    simp only [lookupM] at hl
    by_cases h0 : k0 = k
    · rw [if_pos h0] at hl
      exact absurd hl (by simp)
    · rw [if_neg h0] at hl
      show wfMembers2 (.cons k0 v (appendM rest (.cons k j .nil))) = true
      rw [wfMembers2_cons_iff]
      refine ⟨h1, h2, ?_, wf_appendM_single rest k j h4 hl hnd hwj⟩
      rw [containsKeyM_appendM]
      simp only [h3, containsKeyM, Bool.or_eq_false_iff, Bool.or_false,
        decide_eq_false_iff_not]
      exact ⟨trivial, fun he => h0 he.symm⟩

theorem wf_membersInsert : ∀ (m : JMembers) (p : String) (x : Json),
    wfMembers2 m = true → wfVal2 x = true → noDotKey p = true →
    wfMembers2 (membersInsert m p x) = true
  | .nil, p, x, _, hwx, hnd => by
    simp [membersInsert, wfMembers2, containsKeyM, hnd, hwx]
  | .cons k0 v rest, p, x, hw, hwx, hnd => by
    obtain ⟨h1, h2, h3, h4⟩ := (wfMembers2_cons_iff k0 v rest).mp hw
    by_cases h0 : k0 = p
    · subst h0
      rw [show membersInsert (.cons k0 v rest) k0 x = .cons k0 x rest from by
        simp [membersInsert]]
      rw [wfMembers2_cons_iff]
      exact ⟨hnd, hwx, h3, h4⟩
    · simp only [membersInsert, if_neg h0]
      rw [wfMembers2_cons_iff]
      refine ⟨h1, h2, ?_, wf_membersInsert rest p x h4 hwx hnd⟩
      rw [containsKeyM_membersInsert]
      simp only [h3, Bool.false_or, decide_eq_false_iff_not]
      exact fun he => h0 he.symm

theorem topKeysNe_appendM : ∀ (a b : JMembers),
    topKeysNe (appendM a b) = (topKeysNe a && topKeysNe b)
  | .nil, b => by simp [appendM, topKeysNe]
  | .cons k v rest, b => by
    simp only [appendM, topKeysNe, topKeysNe_appendM rest b, Bool.and_assoc]

theorem topKeysNe_membersInsert : ∀ (m : JMembers) (k : String) (j : Json),
    topKeysNe m = true → k ≠ "" → topKeysNe (membersInsert m k j) = true
  | .nil, k, j, _, hk => by simp [membersInsert, topKeysNe, hk]
  | .cons k0 v rest, k, j, ht, hk => by
    simp only [topKeysNe, Bool.and_eq_true, decide_eq_true_eq] at ht
    by_cases h0 : k0 = k
    · simp [membersInsert, if_pos h0, topKeysNe, hk, ht.2]
    · simp only [membersInsert, if_neg h0, topKeysNe, Bool.and_eq_true,
        decide_eq_true_eq]
      exact ⟨ht.1, topKeysNe_membersInsert rest k j ht.2 hk⟩

theorem membersInsert_ne_nil (m : JMembers) (k : String) (j : Json) :
    membersInsert m k j ≠ .nil := by
  cases m with
  | nil => simp [membersInsert]
  | cons k0 v rest =>
    by_cases h0 : k0 = k
    · simp [membersInsert, if_pos h0]
    · simp [membersInsert, if_neg h0]

theorem appendM_single_ne_nil (m : JMembers) (k : String) (j : Json) :
    appendM m (.cons k j .nil) ≠ .nil := by
  cases m with
  | nil => simp [appendM]
  | cons k0 v rest => simp [appendM]

theorem extendAt_single_ne_nil (init : List String) (m : JMembers)
    (last : String) (j : Json) :
    extendAt m init (.cons last j .nil) ≠ .nil := by
  cases init with
  | nil => exact appendM_single_ne_nil m last j
  | cons p init' =>
    cases hl : lookupM m p with
    | none =>
      simp only [extendAt, hl]
      exact membersInsert_ne_nil _ _ _
    | some e =>
      cases e with
      | obj sub =>
        simp only [extendAt, hl]
        exact membersInsert_ne_nil _ _ _
      | str s =>
        simp only [extendAt, hl]
        intro he
        subst he
        simp [lookupM] at hl
      | other =>
        simp only [extendAt, hl]
        intro he
        subst he
        simp [lookupM] at hl

theorem extendAt_wf (init : List String) : ∀ (m : JMembers) (last : String) (j : Json),
    wfMembers2 m = true → vacantB m (init ++ [last]) = true →
    (∀ q ∈ init ++ [last], '.' ∉ q.data) → wfVal2 j = true →
    wfMembers2 (extendAt m init (.cons last j .nil)) = true := by
  induction init with
  | nil =>
    intro m last j hw hv hseg hwj
    simp only [List.nil_append, vacantB, Option.isNone_iff_eq_none] at hv
    show wfMembers2 (appendM m (.cons last j .nil)) = true
    apply wf_appendM_single m last j hw hv _ hwj
    unfold noDotKey
    simpa using hseg last (by simp)
  | cons p init' ih =>
    intro m last j hw hv hseg hwj
    rw [List.cons_append, vacantB_cons m p (init' ++ [last]) (by simp)] at hv
    have hndp : noDotKey p = true := by
      unfold noDotKey
      simpa using hseg p (by simp)
    have hseg' : ∀ q ∈ init' ++ [last], '.' ∉ q.data := by
      intro q hq
      exact hseg q (by simp [hq])
    cases hl : lookupM m p with
    | none =>
      simp only [extendAt, hl]
      apply wf_membersInsert m p _ hw _ hndp
      rw [wfVal2_obj_iff]
      exact ⟨ih .nil last j rfl (vacant_nil _ (by simp)) hseg' hwj,
        extendAt_single_ne_nil init' .nil last j⟩
    | some e =>
      rw [hl] at hv
      cases e with
      | obj sub =>
        simp only at hv
        simp only [extendAt, hl]
        apply wf_membersInsert m p _ hw _ hndp
        rw [wfVal2_obj_iff]
        have hwsub : wfMembers2 sub = true :=
          ((wfVal2_obj_iff sub).mp (lookupM_some_wfVal2 m p _ hw hl)).1
        exact ⟨ih sub last j hwsub hv hseg' hwj,
          extendAt_single_ne_nil init' sub last j⟩
      | str s => simp at hv
      | other => simp at hv

theorem extendAt_topKeysNe (init : List String) :
    ∀ (m : JMembers) (last : String) (j : Json),
    topKeysNe m = true → (init ++ [last]).head? ≠ some "" →
    topKeysNe (extendAt m init (.cons last j .nil)) = true := by
  induction init with
  | nil =>
    intro m last j ht hh
    show topKeysNe (appendM m (.cons last j .nil)) = true
    rw [topKeysNe_appendM, ht]
    simp only [List.nil_append, List.head?_cons] at hh
    simp [topKeysNe]
    exact fun he => hh (by rw [he])
  | cons p init' ih =>
    intro m last j ht hh
    simp only [List.cons_append, List.head?_cons] at hh
    have hp : p ≠ "" := fun he => hh (by rw [he])
    cases hl : lookupM m p with
    | none =>
      simp only [extendAt, hl]
      exact topKeysNe_membersInsert m p _ ht hp
    | some e =>
      cases e with
      | obj sub =>
        simp only [extendAt, hl]
        exact topKeysNe_membersInsert m p _ ht hp
      | str s => simp only [extendAt, hl]; exact ht
      | other => simp only [extendAt, hl]; exact ht

theorem leafAt_extendAt (init : List String) :
    ∀ (m : JMembers) (last v0 : String) (qs : List String),
    vacantB m (init ++ [last]) = true → qs ≠ [] →
    leafAt (extendAt m init (.cons last (.str v0) .nil)) qs
      = if qs = init ++ [last] then some v0 else leafAt m qs := by
  induction init with
  | nil =>
    intro m last v0 qs hv hqne
    simp only [List.nil_append, vacantB, Option.isNone_iff_eq_none] at hv
    show leafAt (appendM m (.cons last (.str v0) .nil)) qs = _
    cases qs with
    | nil => exact absurd rfl hqne
    | cons q1 qs' =>
      by_cases hq : q1 = last
      · subst hq
        have hl' : lookupM (appendM m (.cons q1 (.str v0) .nil)) q1
            = some (.str v0) := by
          rw [lookupM_appendM_of_none m _ q1 hv]
          simp [lookupM]
        rw [leafAt_lookup, hl']
        show valLeafAt (.str v0) qs' = _
        cases qs' with
        | nil => simp [valLeafAt]
        | cons a b =>
          rw [if_neg (by simp)]
          show (none : Option String) = leafAt m (q1 :: a :: b)
          rw [leafAt_lookup m q1 (a :: b), hv]
      · have hl' : lookupM (appendM m (.cons last (.str v0) .nil)) q1
            = lookupM m q1 := by
          cases hlm : lookupM m q1 with
          | some j => exact lookupM_appendM_left m _ q1 j hlm
          | none =>
            rw [lookupM_appendM_of_none m _ q1 hlm]
            simp [lookupM, if_neg (fun h : last = q1 => hq h.symm)]
        rw [leafAt_lookup, hl', if_neg (by simp [hq]), ← leafAt_lookup]
  | cons p init' ih =>
    intro m last v0 qs hv hqne
    rw [List.cons_append] at hv ⊢
    rw [vacantB_cons m p (init' ++ [last]) (by simp)] at hv
    cases hl : lookupM m p with
    | none =>
      show leafAt (extendAt m (p :: init') (.cons last (.str v0) .nil)) qs = _
      simp only [extendAt, hl]
      cases qs with
      | nil => exact absurd rfl hqne
      | cons q1 qs' =>
        by_cases hq : q1 = p
        · subst hq
          rw [leafAt_lookup, lookupM_membersInsert_self]
          show valLeafAt (.obj (extendAt .nil init'
            (.cons last (.str v0) .nil))) qs' = _
          cases qs' with
          | nil =>
            rw [if_neg (by simp)]
            show (none : Option String) = leafAt m [q1]
            rw [leafAt_lookup, hl]
          | cons a b =>
            rw [valLeafAt_obj _ _ (by simp)]
            rw [ih .nil last v0 (a :: b) (vacant_nil _ (by simp)) (by simp)]
            by_cases hc : (a :: b) = init' ++ [last]
            · rw [if_pos hc, if_pos (by rw [hc])]
            · rw [if_neg hc, if_neg (by simp [hc])]
              show leafAt .nil (a :: b) = leafAt m (q1 :: a :: b)
              rw [leafAt_lookup m q1 (a :: b), hl]
              rfl
        · rw [leafAt_lookup,
            lookupM_membersInsert_other m p q1 _ (fun h => hq h.symm),
            if_neg (by simp [hq]), ← leafAt_lookup]
    | some e =>
      rw [hl] at hv
      cases e with
      | obj sub =>
        simp only at hv
        show leafAt (extendAt m (p :: init') (.cons last (.str v0) .nil)) qs = _
        simp only [extendAt, hl]
        cases qs with
        | nil => exact absurd rfl hqne
        | cons q1 qs' =>
          by_cases hq : q1 = p
          · subst hq
            rw [leafAt_lookup, lookupM_membersInsert_self]
            show valLeafAt (.obj (extendAt sub init'
              (.cons last (.str v0) .nil))) qs' = _
            cases qs' with
            | nil =>
              rw [if_neg (by simp)]
              show (none : Option String) = leafAt m [q1]
              rw [leafAt_lookup, hl]
              rfl
            | cons a b =>
              rw [valLeafAt_obj _ _ (by simp)]
              rw [ih sub last v0 (a :: b) hv (by simp)]
              by_cases hc : (a :: b) = init' ++ [last]
              · rw [if_pos hc, if_pos (by rw [hc])]
              · rw [if_neg hc, if_neg (by simp [hc])]
                show leafAt sub (a :: b) = leafAt m (q1 :: a :: b)
                rw [leafAt_lookup m q1 (a :: b), hl]
                show leafAt sub (a :: b) = valLeafAt (.obj sub) (a :: b)
                rw [valLeafAt_obj _ _ (by simp)]
          · rw [leafAt_lookup,
              lookupM_membersInsert_other m p q1 _ (fun h => hq h.symm),
              if_neg (by simp [hq]), ← leafAt_lookup]
      | str s => simp at hv
      | other => simp at hv

/-- Top-level keys that hold a mapping are non-empty: a nested dict built
from dotted keys that do not start with `.` satisfies this (a top-level
empty key can only carry a string leaf, from the key `""` itself). -/
def topObjKeysNe : JMembers → Bool
  | .nil => true
  | .cons k v rest =>
    (match v with
     | .obj _ => decide (k ≠ "")
     | _ => true) && topObjKeysNe rest

theorem topObjKeysNe_cons_obj (k : String) (sub : JMembers) (rest : JMembers)
    (h : topObjKeysNe (.cons k (.obj sub) rest) = true) :
    k ≠ "" ∧ topObjKeysNe rest = true := by
  simpa [topObjKeysNe, Bool.and_eq_true, decide_eq_true_eq] using h

theorem topObjKeysNe_cons_rest (k : String) (v : Json) (rest : JMembers)
    (h : topObjKeysNe (.cons k v rest) = true) : topObjKeysNe rest = true := by
  cases v with
  | obj sub => exact (topObjKeysNe_cons_obj k sub rest h).2
  | str s => simpa [topObjKeysNe, Bool.and_eq_true] using h
  | other => simpa [topObjKeysNe, Bool.and_eq_true] using h

theorem leafAt_some_head : ∀ (m : JMembers) (q : String) (qs : List String)
    (v' : String), leafAt m (q :: qs) = some v' → containsKeyM m q = true
  | .nil, q, qs, v', h => by simp [leafAt] at h
  | .cons k v rest, q, qs, v', h => by
    by_cases hk : k = q
    · simp [containsKeyM, hk]
    · rw [leafAt, if_neg hk] at h
      simp only [containsKeyM, Bool.or_eq_true]
      exact Or.inr (leafAt_some_head rest q qs v' h)

mutual

theorem entries_mem_json : ∀ (v : Json) (ps : List String) (k' v' : String),
    wfVal2 v = true → (∀ q ∈ ps, '.' ∉ q.data) → ps ≠ [] →
    (ps ≠ [""] ∨ (∃ s, v = .str s)) →
    ((k', v') ∈ entriesJson v (joinParts ps) ↔
      ∃ qs, (∀ q ∈ qs, '.' ∉ q.data) ∧ valLeafAt v qs = some v' ∧
        k' = joinParts (ps ++ qs))
  | .str s, ps, k', v', _, _, _, _ => by
    constructor
    · intro hmem
      simp only [entriesJson, List.mem_singleton, Prod.mk.injEq] at hmem
      exact ⟨[], by simp, by rw [← hmem.2]; rfl, by simp [hmem.1]⟩
    · rintro ⟨qs, _, hval, heq⟩
      cases qs with
      | nil =>
        simp only [valLeafAt, Option.some_inj] at hval
        simp only [entriesJson, List.mem_singleton, Prod.mk.injEq]
        exact ⟨by simp [heq], hval.symm⟩
      | cons a b => simp [valLeafAt] at hval
  | .other, ps, k', v', hw, _, _, _ => by simp [wfVal2] at hw
  | .obj ms, ps, k', v', hw, hseg, hne, hone => by
    obtain ⟨hwm, _⟩ := (wfVal2_obj_iff ms).mp hw
    have hne1 : ps ≠ [""] := by
      rcases hone with h | ⟨s, hs⟩
      · exact h
      · exact absurd hs (by simp)
    rw [show entriesJson (.obj ms) (joinParts ps) = entriesMembers ms (joinParts ps)
      from rfl]
    rw [entries_mem_members ms ps k' v' hwm hseg hne1 (fun h => absurd h hne)]
    constructor
    · rintro ⟨qs, hqne, hsegq, hleaf, heq⟩
      exact ⟨qs, hsegq, by rw [valLeafAt_obj ms qs hqne]; exact hleaf, heq⟩
    · rintro ⟨qs, hsegq, hval, heq⟩
      have hqne : qs ≠ [] := by
        intro h
        subst h
        simp [valLeafAt] at hval
      rw [valLeafAt_obj ms qs hqne] at hval
      exact ⟨qs, hqne, hsegq, hval, heq⟩

theorem entries_mem_members : ∀ (m : JMembers) (ps : List String) (k' v' : String),
    wfMembers2 m = true → (∀ q ∈ ps, '.' ∉ q.data) → ps ≠ [""] →
    (ps = [] → topObjKeysNe m = true) →
    ((k', v') ∈ entriesMembers m (joinParts ps) ↔
      ∃ qs, qs ≠ [] ∧ (∀ q ∈ qs, '.' ∉ q.data) ∧ leafAt m qs = some v' ∧
        k' = joinParts (ps ++ qs))
  | .nil, ps, k', v', _, _, _, _ => by
    simp only [entriesMembers, List.not_mem_nil, false_iff]
    rintro ⟨qs, _, _, hleaf, _⟩
    simp [leafAt] at hleaf
  | .cons k v rest, ps, k', v', hw, hseg, hne1, htop => by
    obtain ⟨hnd, hwv, hck, hwr⟩ := (wfMembers2_cons_iff k v rest).mp hw
    have hone : (ps ++ [k]) ≠ [""] ∨ (∃ s, v = .str s) := by
      cases hv : v with
      | str s => exact Or.inr ⟨s, rfl⟩
      | other => rw [hv] at hwv; exact absurd hwv (by simp [wfVal2])
      | obj sub =>
        left
        cases hps0 : ps with
        | nil =>
          have hk : k ≠ "" := by
            rw [hv] at htop
            exact (topObjKeysNe_cons_obj k sub rest (htop hps0)).1
          simp [hk]
        | cons a ps' => simp
    have hsegk : ∀ q ∈ ps ++ [k], '.' ∉ q.data := by
      intro q hq
      rcases List.mem_append.mp hq with h | h
      · exact hseg q h
      · simp only [List.mem_singleton] at h
        subst h
        exact noDotKey_no_dot q hnd
    rw [show entriesMembers (.cons k v rest) (joinParts ps)
        = entriesJson v (joinKey (joinParts ps) k)
          ++ entriesMembers rest (joinParts ps) from rfl]
    rw [joinKey_snoc ps k hne1, List.mem_append]
    rw [entries_mem_json v (ps ++ [k]) k' v' hwv hsegk (by simp) hone]
    rw [entries_mem_members rest ps k' v' hwr hseg hne1
      (fun h => topObjKeysNe_cons_rest k v rest (htop h))]
    constructor
    · rintro (⟨qs', hsegq, hval, heq⟩ | ⟨qs, hqne, hsegq, hleaf, heq⟩)
      · refine ⟨k :: qs', by simp, ?_, ?_, ?_⟩
        · intro q hq
          rcases List.mem_cons.mp hq with h | h
          · subst h; exact noDotKey_no_dot q hnd
          · exact hsegq q h
        · rw [leafAt, if_pos rfl]; exact hval
        · rw [heq, List.append_assoc]; rfl
      · have hq1 : ∃ q1 tl, qs = q1 :: tl := by
          cases qs with
          | nil => exact absurd rfl hqne
          | cons q1 tl => exact ⟨q1, tl, rfl⟩
        obtain ⟨q1, tl, rfl⟩ := hq1
        have hne_k : k ≠ q1 := by
          intro he
          have := leafAt_some_head rest q1 tl v' hleaf
          rw [← he] at this
          rw [this] at hck
          exact absurd hck (by simp)
        exact ⟨q1 :: tl, by simp, hsegq, by rw [leafAt, if_neg hne_k]; exact hleaf, heq⟩
    · rintro ⟨qs, hqne, hsegq, hleaf, heq⟩
      have hq1 : ∃ q1 tl, qs = q1 :: tl := by
        cases qs with
        | nil => exact absurd rfl hqne
        | cons q1 tl => exact ⟨q1, tl, rfl⟩
      obtain ⟨q1, tl, rfl⟩ := hq1
      by_cases hk : k = q1
      · left
        rw [leafAt, if_pos hk] at hleaf
        refine ⟨tl, fun q hq => hsegq q (by simp [hq]), hleaf, ?_⟩
        rw [heq, List.append_assoc, hk]
        rfl
      · right
        rw [leafAt, if_neg hk] at hleaf
        exact ⟨q1 :: tl, hqne, hsegq, hleaf, heq⟩

end

mutual

theorem entries_nodup2_json : ∀ (v : Json) (ps : List String),
    wfVal2 v = true → (∀ q ∈ ps, '.' ∉ q.data) → ps ≠ [] →
    (ps ≠ [""] ∨ (∃ s, v = .str s)) →
    ((entriesJson v (joinParts ps)).map Prod.fst).Nodup
  | .str s, ps, _, _, _, _ => by simp [entriesJson]
  | .other, ps, hw, _, _, _ => by simp [wfVal2] at hw
  | .obj ms, ps, hw, hseg, hne, hone => by
    obtain ⟨hwm, _⟩ := (wfVal2_obj_iff ms).mp hw
    have hne1 : ps ≠ [""] := by
      rcases hone with h | ⟨s, hs⟩
      · exact h
      · exact absurd hs (by simp)
    exact entries_nodup2_members ms ps hwm hseg hne1 (fun h => absurd h hne)

theorem entries_nodup2_members : ∀ (m : JMembers) (ps : List String),
    wfMembers2 m = true → (∀ q ∈ ps, '.' ∉ q.data) → ps ≠ [""] →
    (ps = [] → topObjKeysNe m = true) →
    ((entriesMembers m (joinParts ps)).map Prod.fst).Nodup
  | .nil, ps, _, _, _, _ => by simp [entriesMembers]
  | .cons k v rest, ps, hw, hseg, hne1, htop => by
    obtain ⟨hnd, hwv, hck, hwr⟩ := (wfMembers2_cons_iff k v rest).mp hw
    have hone : (ps ++ [k]) ≠ [""] ∨ (∃ s, v = .str s) := by
      cases hv : v with
      | str s => exact Or.inr ⟨s, rfl⟩
      | other => rw [hv] at hwv; exact absurd hwv (by simp [wfVal2])
      | obj sub =>
        left
        cases hps0 : ps with
        | nil =>
          have hk : k ≠ "" := by
            rw [hv] at htop
            exact (topObjKeysNe_cons_obj k sub rest (htop hps0)).1
          simp [hk]
        | cons a ps' => simp
    have hsegk : ∀ q ∈ ps ++ [k], '.' ∉ q.data := by
      intro q hq
      rcases List.mem_append.mp hq with h | h
      · exact hseg q h
      · simp only [List.mem_singleton] at h
        subst h
        exact noDotKey_no_dot q hnd
    rw [show entriesMembers (.cons k v rest) (joinParts ps)
        = entriesJson v (joinKey (joinParts ps) k)
          ++ entriesMembers rest (joinParts ps) from rfl,
      joinKey_snoc ps k hne1, List.map_append, List.nodup_append]
    refine ⟨entries_nodup2_json v (ps ++ [k]) hwv hsegk (by simp) hone,
      entries_nodup2_members rest ps hwr hseg hne1
        (fun h => topObjKeysNe_cons_rest k v rest (htop h)), ?_⟩
    intro k1 h1 h2
    obtain ⟨a1, hmem1, hfst1⟩ := List.mem_map.mp h1
    obtain ⟨k1a, w1⟩ := a1
    simp only at hfst1
    rw [hfst1] at hmem1
    obtain ⟨a2, hmem2, hfst2⟩ := List.mem_map.mp h2
    obtain ⟨k2a, w2⟩ := a2
    simp only at hfst2
    rw [hfst2] at hmem2
    obtain ⟨qs', hsegq1, hval, heq1⟩ :=
      (entries_mem_json v (ps ++ [k]) k1 w1 hwv hsegk (by simp) hone).mp hmem1
    obtain ⟨qs, hqne, hsegq2, hleaf, heq2⟩ :=
      (entries_mem_members rest ps k1 w2 hwr hseg hne1
        (fun h => topObjKeysNe_cons_rest k v rest (htop h))).mp hmem2
    have hlists : (ps ++ [k]) ++ qs' = ps ++ qs := by
      apply joinParts_inj _ _ (by simp) (by simp [hqne])
      · intro q hq
        rcases List.mem_append.mp hq with h | h
        · exact hsegk q h
        · exact hsegq1 q h
      · intro q hq
        rcases List.mem_append.mp hq with h | h
        · exact hseg q h
        · exact hsegq2 q h
      · exact heq1.symm.trans heq2
    rw [List.append_assoc] at hlists
    have hqs : qs = k :: qs' := (List.append_cancel_left hlists).symm
    subst hqs
    have := leafAt_some_head rest k qs' w2 hleaf
    rw [this] at hck
    exact absurd hck (by simp)

end

theorem lookupS_eq_some_of_mem_nodup : ∀ (l : StrMap) (k v : String),
    (l.map Prod.fst).Nodup → (k, v) ∈ l → lookupS l k = some v
  | [], k, v, _, hmem => absurd hmem (List.not_mem_nil _)
  | (k0, v0) :: rest, k, v, hnd, hmem => by
    simp only [List.map_cons, List.nodup_cons] at hnd
    rcases List.mem_cons.mp hmem with h | h
    · injection h with h1 h2
      subst h1
      subst h2
      simp [lookupS]
    · have hkr : k ∈ rest.map Prod.fst :=
        List.mem_map.mpr ⟨(k, v), h, rfl⟩
      have hne : k0 ≠ k := fun he => hnd.1 (he ▸ hkr)
      simp only [lookupS, if_neg hne]
      exact lookupS_eq_some_of_mem_nodup rest k v hnd.2 h

theorem lookupS_none_of_not_mem : ∀ (l : StrMap) (k : String),
    k ∉ l.map Prod.fst → lookupS l k = none
  | [], _, _ => rfl
  | (k0, v0) :: rest, k, h => by
    have hne : k0 ≠ k := fun he => h (by simp [he])
    simp only [lookupS, if_neg hne]
    exact lookupS_none_of_not_mem rest k (fun hm => h (by simp [hm]))

theorem lookupS_some_mem : ∀ (l : StrMap) (k v : String),
    lookupS l k = some v → (k, v) ∈ l
  | [], k, v, h => by simp [lookupS] at h
  | (k0, v0) :: rest, k, v, h => by
    simp only [lookupS] at h
    by_cases h0 : k0 = k
    · rw [if_pos h0] at h
      subst h0
      simp [← Option.some_inj.mp h]
    · rw [if_neg h0] at h
      exact List.mem_cons_of_mem _ (lookupS_some_mem rest k v h)

theorem lookupS_append : ∀ (l1 l2 : StrMap) (k : String),
    lookupS (l1 ++ l2) k
      = (match lookupS l1 k with
         | some v => some v
         | none => lookupS l2 k)
  | [], l2, k => rfl
  | (k0, v0) :: rest, l2, k => by
    by_cases h0 : k0 = k
    · simp only [List.cons_append, lookupS, if_pos h0]
    · simp only [List.cons_append, lookupS, if_neg h0]
      exact lookupS_append rest l2 k

theorem topObjKeysNe_appendM : ∀ (a b : JMembers),
    topObjKeysNe (appendM a b) = (topObjKeysNe a && topObjKeysNe b)
  | .nil, b => by simp [appendM, topObjKeysNe]
  | .cons k v rest, b => by
    simp only [appendM, topObjKeysNe, topObjKeysNe_appendM rest b,
      Bool.and_assoc]

theorem topObjKeysNe_membersInsert_obj : ∀ (m : JMembers) (k : String)
    (sub : JMembers), topObjKeysNe m = true → k ≠ "" →
    topObjKeysNe (membersInsert m k (.obj sub)) = true
  | .nil, k, sub, _, hk => by
    simp [membersInsert, topObjKeysNe, hk]
  | .cons k0 v rest, k, sub, ht, hk => by
    have htr : topObjKeysNe rest = true := topObjKeysNe_cons_rest k0 v rest ht
    by_cases h0 : k0 = k
    · simp only [membersInsert, if_pos h0]
      simp [topObjKeysNe, hk, htr]
    · simp only [membersInsert, if_neg h0]
      cases hv : v with
      | obj s2 =>
        rw [hv] at ht
        obtain ⟨hk0, _⟩ := topObjKeysNe_cons_obj k0 s2 rest ht
        simp [topObjKeysNe, hk0,
          topObjKeysNe_membersInsert_obj rest k sub htr hk]
      | str s2 =>
        simp [topObjKeysNe,
          topObjKeysNe_membersInsert_obj rest k sub htr hk]
      | other =>
        simp [topObjKeysNe,
          topObjKeysNe_membersInsert_obj rest k sub htr hk]

theorem extendAt_topObjKeysNe (init : List String) :
    ∀ (m : JMembers) (last v0 : String),
    topObjKeysNe m = true → (∀ p ps', init = p :: ps' → p ≠ "") →
    topObjKeysNe (extendAt m init (.cons last (.str v0) .nil)) = true := by
  induction init with
  | nil =>
    intro m last v0 ht _
    show topObjKeysNe (appendM m (.cons last (.str v0) .nil)) = true
    rw [topObjKeysNe_appendM, ht]
    simp [topObjKeysNe]
  | cons p init' ih =>
    intro m last v0 ht hinit
    have hp : p ≠ "" := hinit p init' rfl
    cases hl : lookupM m p with
    | none =>
      simp only [extendAt, hl]
      exact topObjKeysNe_membersInsert_obj m p _ ht hp
    | some e =>
      cases e with
      | obj sub =>
        simp only [extendAt, hl]
        exact topObjKeysNe_membersInsert_obj m p _ ht hp
      | str s => simp only [extendAt, hl]; exact ht
      | other => simp only [extendAt, hl]; exact ht

theorem head_splitDot_ne_empty (k : String) (h : startsWithDot k = false)
    (hk : k ≠ "") : ∀ p ps', splitDot k = p :: ps' → p ≠ "" := by
  intro p ps' hp
  unfold splitDot at hp
  cases hd : k.data with
  | nil => exact absurd (String.ext hd) hk
  | cons c rest =>
    have hc : c ≠ '.' := by
      unfold startsWithDot at h
      rw [hd] at h
      intro hcc
      subst hcc
      simp at h
    rw [hd] at hp
    unfold splitCs at hp
    rw [if_neg hc] at hp
    cases hs : splitCs rest with
    | nil => exact absurd hs (splitCs_ne_nil rest)
    | cons g gs =>
      rw [hs] at hp
      simp only [List.map_cons, List.cons.injEq] at hp
      intro he
      have := congrArg String.data hp.1
      rw [he] at this
      simp at this

theorem insertAll_build : ∀ (rest : StrMap) (m : JMembers) (done : StrMap),
    wfMembers2 m = true → topObjKeysNe m = true →
    (∀ k', leafAt m (splitDot k') = lookupS done k') →
    (done.map Prod.fst ++ rest.map Prod.fst).Nodup →
    (∀ kv ∈ rest, kv.2 ≠ "") →
    (∀ kv ∈ rest, startsWithDot kv.1 = false) →
    (∀ k1 ∈ done.map Prod.fst ++ rest.map Prod.fst,
     ∀ k2 ∈ done.map Prod.fst ++ rest.map Prod.fst,
       k1 ≠ k2 → ¬ (k1.data.isPrefixOf k2.data = true)) →
    ∃ m', insertAll m rest = .ok m' ∧ wfMembers2 m' = true ∧
      topObjKeysNe m' = true ∧
      (∀ k', leafAt m' (splitDot k') = lookupS (done ++ rest) k')
  | [], m, done, hw, ht, hinv, _, _, _, _ =>
    ⟨m, rfl, hw, ht, fun k' => by rw [List.append_nil]; exact hinv k'⟩
  | (k, v) :: rest', m, done, hw, ht, hinv, hnd, hvals, hdots, hpf => by
    have hkmem : k ∈ done.map Prod.fst ++ ((k, v) :: rest').map Prod.fst := by
      simp
    have hkdone : k ∉ done.map Prod.fst := by
      intro hmem
      have hd := (List.nodup_append.mp hnd).2.2
      exact hd hmem (by simp)
    have hps_ne : splitDot k ≠ [] := splitDot_ne_nil k
    have hvac : vacantB m (splitDot k) = true := by
      apply vacant_of_incomparable (splitDot k) m hps_ne hw
      intro qs v1 hleaf
      have hqsegs : ∀ q ∈ qs, '.' ∉ q.data :=
        leafAt_some_okSegs m qs v1 hw hleaf
      have hqne : qs ≠ [] := leafAt_some_ne_nil m qs v1 hleaf
      have hsplit2 : splitDot (joinParts qs) = qs :=
        splitDot_joinParts qs hqne hqsegs
      have hlk2 : lookupS done (joinParts qs) = some v1 := by
        rw [← hinv (joinParts qs), hsplit2]
        exact hleaf
      have hk2done : joinParts qs ∈ done.map Prod.fst :=
        List.mem_map.mpr ⟨(joinParts qs, v1),
          lookupS_some_mem done (joinParts qs) v1 hlk2, rfl⟩
      have hk2mem : joinParts qs ∈ done.map Prod.fst
          ++ ((k, v) :: rest').map Prod.fst :=
        List.mem_append_left _ hk2done
      have hkne : joinParts qs ≠ k := fun he => hkdone (he ▸ hk2done)
      constructor
      · intro hpre
        obtain ⟨extra, hex⟩ := hpre
        cases extra with
        | nil =>
          apply hkne
          rw [List.append_nil] at hex
          rw [hex, joinParts_splitDot]
        | cons e es =>
          apply hpf (joinParts qs) hk2mem k hkmem hkne
          rw [show k = joinParts (splitDot k) from (joinParts_splitDot k).symm,
            ← hex]
          exact joinParts_prefix qs (e :: es) hqne (by simp)
      · intro hpre
        obtain ⟨extra, hex⟩ := hpre
        cases extra with
        | nil =>
          apply hkne
          rw [List.append_nil] at hex
          rw [← hex, joinParts_splitDot]
        | cons e es =>
          apply hpf k hkmem (joinParts qs) hk2mem (fun he => hkne he.symm)
          rw [show k = joinParts (splitDot k) from (joinParts_splitDot k).symm,
            ← hex]
          exact joinParts_prefix (splitDot k) (e :: es) hps_ne (by simp)
    have hvne : v ≠ "" := hvals (k, v) (by simp)
    have hstep : insertAll m ((k, v) :: rest')
        = (insertPath m (splitDot k) v) >>= fun m1 => insertAll m1 rest' := by
      show List.foldlM _ m ((k, v) :: rest') = _
      rw [List.foldlM_cons]
      simp only [if_neg hvne]
      rfl
    rcases List.eq_nil_or_concat (splitDot k) with hnil | ⟨init, last, hps⟩
    · exact absurd hnil hps_ne
    rw [List.concat_eq_append] at hps
    rw [hps] at hvac
    have hins : insertPath m (init ++ [last]) v
        = .ok (extendAt m init (.cons last (.str v) .nil)) :=
      insertPath_fresh init m last v hvac
    have hsegs : ∀ q ∈ init ++ [last], '.' ∉ q.data := by
      rw [← hps]
      exact okSegs_splitDot k
    have hw1 : wfMembers2 (extendAt m init (.cons last (.str v) .nil)) = true :=
      extendAt_wf init m last (.str v) hw hvac hsegs (by simp [wfVal2, hvne])
    have hinit : ∀ p ps', init = p :: ps' → p ≠ "" := by
      intro p ps' hie
      have hk_ne : k ≠ "" := by
        intro he
        subst he
        rw [hie] at hps
        have : splitDot "" = [""] := rfl
        rw [this] at hps
        simp at hps
      exact head_splitDot_ne_empty k (hdots (k, v) (by simp)) hk_ne p
        (ps' ++ [last]) (by rw [hps, hie]; rfl)
    have ht1 : topObjKeysNe (extendAt m init (.cons last (.str v) .nil))
        = true := extendAt_topObjKeysNe init m last v ht hinit
    have hinv1 : ∀ k2, leafAt (extendAt m init (.cons last (.str v) .nil))
        (splitDot k2) = lookupS (done ++ [(k, v)]) k2 := by
      intro k2
      rw [leafAt_extendAt init m last v (splitDot k2) hvac (splitDot_ne_nil k2)]
      rw [lookupS_append]
      by_cases hc : splitDot k2 = init ++ [last]
      · rw [if_pos hc]
        have hk2 : k2 = k := splitDot_inj k2 k (by rw [hc, ← hps])
        subst hk2
        rw [lookupS_none_of_not_mem done k2 hkdone]
        simp [lookupS]
      · rw [if_neg hc, hinv k2]
        cases hl2 : lookupS done k2 with
        | some w => rfl
        | none =>
          have hne2 : k ≠ k2 := by
            intro he
            subst he
            rw [hps] at hc
            exact hc rfl
          simp [lookupS, if_neg hne2]
    have hperm : done.map Prod.fst ++ ((k, v) :: rest').map Prod.fst
        = (done ++ [(k, v)]).map Prod.fst ++ rest'.map Prod.fst := by
      rw [List.map_append]
      simp
    rw [hperm] at hnd hpf
    obtain ⟨m', hrun, hw', ht', hinv'⟩ :=
      insertAll_build rest' (extendAt m init (.cons last (.str v) .nil))
        (done ++ [(k, v)]) hw1 ht1 hinv1 hnd
        (fun kv hkv => hvals kv (by simp [hkv]))
        (fun kv hkv => hdots kv (by simp [hkv])) hpf
    refine ⟨m', ?_, hw', ht', ?_⟩
    · rw [hstep, hps, hins]
      show insertAll _ rest' = _
      exact hrun
    · intro k2
      rw [hinv' k2, List.append_assoc]
      rfl

theorem flatten_lookup (m : JMembers) (hw : wfMembers2 m = true)
    (htop : topObjKeysNe m = true) (k : String) :
    lookupS (flattenMembers m "" []) k = leafAt m (splitDot k) := by
  have hnd : ((entriesMembers m (joinParts [])).map Prod.fst).Nodup :=
    entries_nodup2_members m [] hw (by simp) (by simp) (fun _ => htop)
  have hmem := fun k' v' => entries_mem_members m [] k' v' hw (by simp)
    (by simp) (fun _ => htop)
  simp only [joinParts_nil, List.nil_append] at hnd hmem
  have hfl : flattenMembers m "" [] = [] ++ entriesMembers m "" := by
    apply flatten_append_members m "" [] hnd
    intro k' _
    simp
  rw [hfl, List.nil_append]
  cases hleaf : leafAt m (splitDot k) with
  | some v =>
    apply lookupS_eq_some_of_mem_nodup _ k v hnd
    apply (hmem k v).mpr
    exact ⟨splitDot k, splitDot_ne_nil k, okSegs_splitDot k, hleaf,
      (joinParts_splitDot k).symm⟩
  | none =>
    cases hlk : lookupS (entriesMembers m "") k with
    | none => rfl
    | some v =>
      obtain ⟨qs, hqne, hqseg, hql, hqk⟩ := (hmem k v).mp
        (lookupS_some_mem _ k v hlk)
      rw [hqk, splitDot_joinParts qs hqne hqseg, hql] at hleaf
      exact Option.noConfusion hleaf

/-- Total round trip of the second property of section 8: build the nested
tree with the entry loop of `export_ha_json`, then flatten it again with
`_flatten_json` (empty table on the error case). -/
def unflattenFlatten (S : StrMap) : StrMap :=
  match unflattenE S with
  | .ok m => flatten_json (.obj m) "" []
  | .error _ => []

/-- C2 (corrected): for a flat string table S whose keys are distinct (the
dict invariant), whose values are all non-empty, whose keys do not begin
with a dot, and in which no key is a character-prefix of another key,
unflatten (the entry loop of `export_ha_json`) succeeds and the table
flattened back from the resulting tree by `_flatten_json` agrees with S at
every key (same mapping, hence same key set and values). -/
theorem c2_flatten_unflatten_table (S : StrMap) (k : String)
    (hnd : (S.map Prod.fst).Nodup)
    (hvals : ∀ kv ∈ S, kv.2 ≠ "")
    (hdots : ∀ kv ∈ S, startsWithDot kv.1 = false)
    (hpf : ∀ k1 ∈ S.map Prod.fst, ∀ k2 ∈ S.map Prod.fst,
      k1 ≠ k2 → ¬ (k1.data.isPrefixOf k2.data = true)) :
    (unflattenE S).toOption.isSome = true ∧
    lookupS (unflattenFlatten S) k = lookupS S k := by
  obtain ⟨m', hrun, hw', ht', hinv'⟩ :=
    insertAll_build S .nil [] rfl rfl (fun _ => rfl) hnd hvals hdots hpf
  have hu : unflattenE S = .ok m' := by
    rw [unflattenE_eq_insertAll]
    exact hrun
  constructor
  · rw [hu]
    rfl
  · unfold unflattenFlatten
    rw [hu]
    show lookupS (flattenMembers m' "" []) k = _
    rw [flatten_lookup m' hw' ht' k, hinv' k, List.nil_append]

/-- C2 counterexample: two tables in which no key is a prefix of another
(each has a single key), yet flatten after unflatten does not reproduce
them: with the empty value the entry is skipped, and with a key starting
with a dot the leading empty segment is swallowed by the falsy-prefix join
of `_flatten_json`, so the key comes back as "a". -/
theorem c2_counterexample :
    (∀ k1 ∈ ([("a", "")] : StrMap).map Prod.fst,
     ∀ k2 ∈ ([("a", "")] : StrMap).map Prod.fst,
       k1 ≠ k2 → ¬ (k1.data.isPrefixOf k2.data = true)) ∧
    lookupS (unflattenFlatten [("a", "")]) "a" ≠ lookupS [("a", "")] "a" ∧
    (∀ k1 ∈ ([(".a", "x")] : StrMap).map Prod.fst,
     ∀ k2 ∈ ([(".a", "x")] : StrMap).map Prod.fst,
       k1 ≠ k2 → ¬ (k1.data.isPrefixOf k2.data = true)) ∧
    lookupS (unflattenFlatten [(".a", "x")]) ".a"
      ≠ lookupS [(".a", "x")] ".a" := by
  decide

/-- C2 witness: the corrected round trip instantiated at a concrete
two-entry table and key. -/
theorem c2_flatten_unflatten_table_witness :
    (unflattenE [("a.b", "hello"), ("a.c", "world")]).toOption.isSome = true ∧
    lookupS (unflattenFlatten [("a.b", "hello"), ("a.c", "world")]) "a.b"
      = lookupS [("a.b", "hello"), ("a.c", "world")] "a.b" :=
  c2_flatten_unflatten_table [("a.b", "hello"), ("a.c", "world")] "a.b"
    (by decide) (by decide) (by decide) (by decide)
